import Mathlib

/-
  Verification of the Wave-Function-Collapse map generator
  (src/tools/map_generator/wfc_generator.py).

  The Python solver is shallowly embedded:
  * `Tile` mirrors the `Tile` class; its `edges` dictionary may lack a
    direction, which Python surfaces as a `KeyError`, so edge lookup returns
    `Option String`.
  * Catalog construction (`WFCGenerator.__init__`) precomputes the adjacency
    rules; any missing edge label makes that precomputation raise, so
    `mkGenerator` returns `Option Generator`.
  * The solver loop (`generate`) is a fuel recursion whose fuel is exactly the
    `max_iterations = width * height * 100` bound of the source; every exit
    path of the Python loop (full collapse, break on a `None` min-entropy
    cell, contradiction during propagation, iteration cap) is a distinct
    outcome.  An uncaught Python exception (the `IndexError` raised when an
    empty possibility set reaches the final grid conversion, or a failure
    inside `random.choices`) is modelled by the `crash` outcome.
  * Python's `random.random()` draws are modelled by an explicit stream
    `Nat → ℚ` of values in `[0, 1)`, consumed in exactly the order of the
    source: one draw per examined un-collapsed cell during the entropy scan,
    then one draw for the weighted choice of `random.choices`.
  * Python iterates over possibility sets in hash-table order; the embedding
    keeps each possibility set as a duplicate-free list in a fixed order, so
    iteration (`random.choices` candidates, `list(...)[0]`) is the list
    order.  No claim depends on the particular order.
-/

namespace WFC

/-- The four cardinal directions of a tile's edge dictionary. -/
inductive Dir
  | north
  | south
  | east
  | west
deriving DecidableEq, Repr

instance : Fintype Dir :=
  ⟨⟨{Dir.north, Dir.south, Dir.east, Dir.west}, by decide⟩, by intro d; cases d <;> decide⟩

/-- The `opposite` direction table of `Tile.can_connect` (lines 42-47). -/
def Dir.opposite : Dir → Dir
  | .north => .south
  | .south => .north
  | .east => .west
  | .west => .east

/-- A tile definition (class `Tile`, lines 16-28).  `edges` returns `none`
for a direction missing from the tile's edge dictionary (Python `KeyError`);
`weight` defaults to 1 in the source and is carried as a rational. -/
structure Tile where
  id : Nat
  name : String
  edges : Dir → Option String
  weight : ℚ
  row : Nat
  col : Nat

/-- Predicate `Tile.can_connect` (lines 30-52): the edge of `t` toward `direction` must
equal the `other` tile's edge on the opposite side.  `none` models the
`KeyError` raised when either edge label is missing. -/
def canConnect (t other : Tile) (direction : Dir) : Option Bool :=
  match t.edges direction, other.edges direction.opposite with
  | some myEdge, some theirEdge => some (decide (myEdge = theirEdge))
  | _, _ => none

/-- One row of `_compute_adjacency_rules` (lines 89-92): the ids of all
catalog tiles that `t.can_connect` accepts in direction `d`. -/
def ruleRowFor (t : Tile) (tiles : List Tile) (d : Dir) : Finset Nat :=
  tiles.foldl
    (fun acc other => if canConnect t other d = some true then insert other.id acc else acc) ∅

/-- The adjacency-rule dictionary of `_compute_adjacency_rules` (lines 72-94):
`rules[tile.id][direction]`, built left to right so a duplicated id keeps the
row of its last occurrence, exactly as the Python dict does. -/
def rulesOf (tiles : List Tile) : Nat → Dir → Finset Nat :=
  tiles.foldl
    (fun r t => fun i => if i = t.id then fun d => ruleRowFor t tiles d else r i)
    (fun _ _ => ∅)

/-- Method `_compute_adjacency_rules` finishes without a `KeyError` exactly when
every edge lookup it performs is defined. -/
def rulesDefined (tiles : List Tile) : Prop :=
  ∀ t ∈ tiles, ∀ other ∈ tiles, ∀ d : Dir, (canConnect t other d).isSome

instance (tiles : List Tile) : Decidable (rulesDefined tiles) := by
  unfold rulesDefined
  infer_instance

/-- Raw result of `_compute_adjacency_rules` inside `__init__`: `none` when a
missing edge label raises during rule precomputation. -/
def computeRules (tiles : List Tile) : Option (Nat → Dir → Finset Nat) :=
  if rulesDefined tiles then some (rulesOf tiles) else none

/-- The `tile_by_id` dictionary of `__init__` (line 65): built left to right,
so a duplicated id silently keeps the last tile carrying it. -/
def mkTileById (tiles : List Tile) : Nat → Option Tile :=
  tiles.foldl (fun m t => fun i => if i = t.id then some t else m i) (fun _ => none)

/-- The constructed `WFCGenerator` (lines 58-70): the ordered tile list, the
`tile_by_id` dictionary and the precomputed adjacency rules. -/
structure Generator where
  tiles : List Tile
  tileById : Nat → Option Tile
  rules : Nat → Dir → Finset Nat

/-- Constructor `WFCGenerator.__init__` (lines 58-70), taking the already parsed tile
definitions.  It performs no validation of its own: the only failure is the
`KeyError` escaping `_compute_adjacency_rules`. -/
def mkGenerator (tiles : List Tile) : Option Generator :=
  match computeRules tiles with
  | none => none
  | some r => some { tiles := tiles, tileById := mkTileById tiles, rules := r }

/-- The id set `set(t.id for t in self.tiles)` (line 114). -/
def allTileIds (tiles : List Tile) : Finset Nat :=
  (tiles.map Tile.id).toFinset

/-- The `possibilities` grid, indexed `poss y x` like `possibilities[y][x]`.
A Python set of tile ids is embedded as a duplicate-free list in a fixed
iteration order (the catalog order of the initial full set, preserved by the
filtering intersections), so `length` is the set size. -/
def Poss : Type := Nat → Nat → List Nat

/-- The `collapsed` grid, indexed `coll y x` like `collapsed[y][x]`. -/
def Coll : Type := Nat → Nat → Bool

/-- In-place assignment `grid[y0][x0] = v` on a functional grid. -/
def setCell {α : Type} (grid : Nat → Nat → α) (y0 x0 : Nat) (v : α) : Nat → Nat → α :=
  fun y x => if y = y0 ∧ x = x0 then v else grid y x

/-- Check `_is_fully_collapsed` (lines 161-163). -/
def fullyCollapsed (w h : Nat) (coll : Coll) : Bool :=
  (List.range h).all fun y => (List.range w).all fun x => coll y x

/-- The row-major scan order of `_find_min_entropy_cell` (lines 171-172):
`y` outer over the height, `x` inner over the width. -/
def rowMajor (w h : Nat) : List (Nat × Nat) :=
  (List.range h).flatMap fun y => (List.range w).map fun x => (y, x)

/-- The scan loop of `_find_min_entropy_cell` (lines 165-189).  The
accumulator `best` holds `(min_entropy, min_cell)`; `none` is the initial
`float('inf')` state.  Each examined un-collapsed cell with positive entropy
consumes one `random.random()` draw (`stream pos`), scaled by `0.1`; a cell
with entropy 0 returns `None` immediately.  The returned `Nat` is the stream
position after the scan.  `bestUpdate` is the comparison
`entropy_with_noise < min_entropy` (lines 185-187) updating the running
minimum. -/
def bestUpdate (ewn : ℚ) (y x : Nat) : Option (ℚ × Nat × Nat) → Option (ℚ × Nat × Nat)
  | none => some (ewn, y, x)
  | some (m, c) => if ewn < m then some (ewn, y, x) else some (m, c)

def findMinAux (poss : Poss) (coll : Coll) (stream : Nat → ℚ) :
    List (Nat × Nat) → Nat → Option (ℚ × Nat × Nat) → Nat × Option (Nat × Nat)
  | [], pos, best => (pos, best.map fun b => b.2)
  | (y, x) :: rest, pos, best =>
    if coll y x then findMinAux poss coll stream rest pos best
    else if (poss y x).length = 0 then (pos, none)
    else
      findMinAux poss coll stream rest (pos + 1)
        (bestUpdate (((poss y x).length : ℚ) + stream pos * (1 / 10)) y x best)

/-- Method `_find_min_entropy_cell` over the whole grid in row-major order. -/
def findMin (w h : Nat) (poss : Poss) (coll : Coll) (stream : Nat → ℚ) (pos : Nat) :
    Nat × Option (Nat × Nat) :=
  findMinAux poss coll stream (rowMajor w h) pos none

/-- The cumulative-weight selection of `random.choices(tiles, weights, k=1)`
on the draw `u = random() * total`: the first candidate whose cumulative
weight exceeds `u`, clamped to the last candidate (CPython clamps the bisect
index to `len - 1`). -/
def pickGo : List Tile → ℚ → Option Nat
  | [], _ => none
  | [t], _ => some t.id
  | t :: t' :: ts, u => if u < t.weight then some t.id else pickGo (t' :: ts) (u - t.weight)

/-- The lookups `[self.tile_by_id[tid] for tid in possible_tiles]`
(line 193), left to right, stopping at the first failing lookup
(`KeyError`). -/
def lookupTiles (f : Nat → Option Tile) : List Nat → Option (List Tile)
  | [] => some []
  | i :: is =>
    match f i with
    | none => none
    | some t => (lookupTiles f is).map fun ts => t :: ts

/-- Method `_collapse_cell` (lines 191-197): look every candidate id up in
`tile_by_id` (in the set's iteration order), then draw one candidate with
probability proportional to its weight, consuming one `random.random()`
value.  `none` models the `KeyError` of a failed `tile_by_id` lookup and the
exception `random.choices` raises on an empty candidate list or a
non-positive weight total. -/
def collapseCell (g : Generator) (s : List Nat) (stream : Nat → ℚ) (pos : Nat) :
    Nat × Option Nat :=
  match lookupTiles g.tileById s with
  | none => (pos + 1, none)
  | some cand =>
    let total := (cand.map Tile.weight).sum
    if total ≤ 0 then (pos + 1, none) else (pos + 1, pickGo cand (stream pos * total))

/-- The neighbor offsets examined by `_propagate` (lines 216-221), in source
order: north, south, east, west.  Coordinates are integers so that the
out-of-bounds test `nx < 0 or ... or ny < 0 or ...` (line 225) is faithful. -/
def neighborList (cx cy : Int) : List (Int × Int × Dir) :=
  [(cx, cy - 1, Dir.north), (cx, cy + 1, Dir.south), (cx + 1, cy, Dir.east), (cx - 1, cy, Dir.west)]

/-- The inner neighbor loop of `_propagate` (lines 223-248) for one popped
cell whose possibility set is `center`.  `valid_for_neighbor` (the union of
the allowed-neighbor sets over `center`, lines 233-235) is intersected with
the neighbor's possibilities as a membership filter.  Returns the updated
grid and the cells pushed onto the stack (most recent first, matching
`list.append` / `list.pop`), or `none` when an intersection comes out empty
(line 241). -/
def processNeighbors (g : Generator) (w h : Nat) (coll : Coll) (center : List Nat) :
    List (Int × Int × Dir) → Poss → List (Int × Int) → Option (Poss × List (Int × Int))
  | [], poss, acc => some (poss, acc)
  | (nx, ny, d) :: rest, poss, acc =>
    if nx < 0 ∨ (w : Int) ≤ nx ∨ ny < 0 ∨ (h : Int) ≤ ny then
      processNeighbors g w h coll center rest poss acc
    else if coll ny.toNat nx.toNat then
      processNeighbors g w h coll center rest poss acc
    else
      let oldP := poss ny.toNat nx.toNat
      let newP := oldP.filter fun v => center.any fun t => decide (v ∈ g.rules t d)
      if newP.length = 0 then none
      else if newP.length < oldP.length then
        processNeighbors g w h coll center rest
          (setCell poss ny.toNat nx.toNat newP) ((nx, ny) :: acc)
      else processNeighbors g w h coll center rest poss acc

/-- Sum of all possibility-set sizes; each stack push of `_propagate` comes
with a strict decrease of this mass, which bounds the worklist loop. -/
def totalMass (w h : Nat) (poss : Poss) : Nat :=
  ∑ y ∈ Finset.range h, ∑ x ∈ Finset.range w, (poss y x).length

/-- The worklist loop of `_propagate` (lines 208-250), driven by fuel.
`some (some poss)` is the `True` return, `some none` the `False`
(contradiction) return; the outer `none` is fuel exhaustion, which
`propagate` supplies enough fuel to rule out. -/
def propagateAux (g : Generator) (w h : Nat) (coll : Coll) :
    Nat → List (Int × Int) → Poss → Option (Option Poss)
  | _, [], poss => some (some poss)
  | 0, _ :: _, _ => none
  | fuel + 1, (cx, cy) :: stack, poss =>
    match processNeighbors g w h coll (poss cy.toNat cx.toNat) (neighborList cx cy) poss [] with
    | none => some none
    | some (poss', pushes) => propagateAux g w h coll fuel (pushes ++ stack) poss'

/-- Method `_propagate` (lines 199-250), started from the collapsed cell `(x, y)`;
the stack can pop at most `totalMass + 1` times before emptying. -/
def propagate (g : Generator) (w h : Nat) (poss : Poss) (coll : Coll) (x y : Nat) :
    Option (Option Poss) :=
  propagateAux g w h coll (totalMass w h poss + 1) [((x : Int), (y : Int))] poss

/-- Outcome of one `generate` run: the returned grid, the two `return None`
paths with their printed reasons (`Contradiction detected ... at cell (x, y)`,
line 147-149, and the `max_iterations` warning, lines 151-153), or an
uncaught exception (`crash`). -/
inductive RunResult
  | ok (grid : List (List Nat))
  | contradiction (x y : Nat)
  | iterLimit
  | crash
deriving DecidableEq, Repr

/-- The mutable state of one `generate` run: the possibility grid, the
collapsed flags, and the position reached in the random stream. -/
structure WfcState where
  poss : Poss
  coll : Coll
  pos : Nat

/-- The grid conversion `[[list(possibilities[y][x])[0] ...]]` (line 156):
`some` when every cell is non-empty, `none` for the `IndexError` an empty
cell raises.  `list(...)[0]` is the head of the set in iteration order. -/
def buildGrid (w h : Nat) (poss : Poss) : Option (List (List Nat)) :=
  if (List.range h).all (fun y => (List.range w).all fun x => !(poss y x).isEmpty) then
    some ((List.range h).map fun y => (List.range w).map fun x => (poss y x).headD 0)
  else none

/-- The code after the main loop (lines 151-159): the `iterations >=
max_iterations` check (fuel 0) returns `None` with the warning, otherwise the
grid conversion runs. -/
def afterLoop (w h : Nat) (fuel : Nat) (poss : Poss) : RunResult :=
  if fuel = 0 then RunResult.iterLimit
  else
    match buildGrid w h poss with
    | some grid => RunResult.ok grid
    | none => RunResult.crash

/-- Result of one iteration of the main loop body (lines 125-149): continue
with a new state, `break` out of the loop (line 132), or return from
`generate` altogether. -/
inductive StepRes
  | cont (s : WfcState)
  | brk (pos : Nat)
  | fail (r : RunResult) (pos : Nat)

/-- One iteration of the `while` body of `generate` (lines 125-149):
min-entropy selection, weighted collapse of the chosen cell, constraint
propagation. -/
def wfcStep (g : Generator) (w h : Nat) (stream : Nat → ℚ) (s : WfcState) : StepRes :=
  match findMin w h s.poss s.coll stream s.pos with
  | (pos', none) => StepRes.brk pos'
  | (pos', some (y, x)) =>
    match collapseCell g (s.poss y x) stream pos' with
    | (pos'', none) => StepRes.fail RunResult.crash pos''
    | (pos'', some chosen) =>
      let poss' := setCell s.poss y x [chosen]
      let coll' := setCell s.coll y x true
      match propagate g w h poss' coll' x y with
      | some none => StepRes.fail (RunResult.contradiction x y) pos''
      | some (some poss'') => StepRes.cont ⟨poss'', coll', pos''⟩
      | none => StepRes.fail RunResult.crash pos''  -- fuel exhaustion, proved unreachable below

/-- The main loop of `generate` (lines 120-159).  The fuel starts at
`max_iterations = width * height * 100` and decreases by one per iteration,
so `fuel = 0` is exactly `iterations >= max_iterations`; when the loop
condition fails the after-loop code runs.  The second component is the final
random-stream position. -/
def wfcLoop (g : Generator) (w h : Nat) (stream : Nat → ℚ) :
    Nat → WfcState → RunResult × Nat
  | 0, s => (afterLoop w h 0 s.poss, s.pos)
  | fuel + 1, s =>
    if fullyCollapsed w h s.coll then (afterLoop w h (fuel + 1) s.poss, s.pos)
    else
      match wfcStep g w h stream s with
      | StepRes.brk pos' => (afterLoop w h fuel s.poss, pos')
      | StepRes.fail r pos' => (r, pos')
      | StepRes.cont s' => wfcLoop g w h stream fuel s'

/-- The initial state of `generate` (lines 113-118): every cell holds every
tile id (`set(t.id for t in self.tiles)`, one copy per cell), nothing
collapsed, no randomness consumed yet. -/
def initState (g : Generator) : WfcState :=
  ⟨fun _ _ => (g.tiles.map Tile.id).dedup, fun _ _ => false, 0⟩

/-- Method `generate` (lines 96-159) together with the final position of the random
stream (the amount of seeded randomness the run consumed). -/
def generateFull (g : Generator) (w h : Nat) (stream : Nat → ℚ) : RunResult × Nat :=
  wfcLoop g w h stream (w * h * 100) (initState g)

/-- Method `WFCGenerator.generate` (lines 96-159): the returned grid or the failure
outcome. -/
def generate (g : Generator) (w h : Nat) (stream : Nat → ℚ) : RunResult :=
  (generateFull g w h stream).1

/-- Total indexing `grid[y][x]` for stating properties of the output. -/
def cellAt (grid : List (List Nat)) (y x : Nat) : Nat :=
  (grid.getD y []).getD x 0

/-! ### Concrete catalogs

The two-tile catalog of the spec's scenario (tile A with every edge labelled
"grass", tile B with every edge labelled "water"), the empty catalog, and
small malformed catalogs exercising `__init__`. -/

/-- Tile A of the spec scenario: id 1, all four edges "grass", weight 1. -/
def tileA : Tile := ⟨1, "A", fun _ => some "grass", 1, 0, 0⟩

/-- Tile B of the spec scenario: id 2, all four edges "water", weight 1. -/
def tileB : Tile := ⟨2, "B", fun _ => some "water", 1, 0, 0⟩

/-- The two-tile catalog with no shared labels in any direction. -/
def catAB : List Tile := [tileA, tileB]

/-- The generator built from `catAB`. -/
def gAB : Generator := { tiles := catAB, tileById := mkTileById catAB, rules := rulesOf catAB }

/-- The generator built from an empty tile list. -/
def gEmpty : Generator := { tiles := [], tileById := mkTileById [], rules := rulesOf [] }

/-- Two tiles sharing the id 1 (compatible edges, so construction runs to
completion). -/
def dupCat : List Tile :=
  [⟨1, "A", fun _ => some "grass", 1, 0, 0⟩, ⟨1, "B", fun _ => some "grass", 1, 0, 0⟩]

/-- The generator built from `dupCat`. -/
def gDup : Generator := { tiles := dupCat, tileById := mkTileById dupCat, rules := rulesOf dupCat }

/-- One tile with a negative weight. -/
def negWCat : List Tile := [⟨1, "A", fun _ => some "grass", -3, 0, 0⟩]

/-- The generator built from `negWCat`. -/
def gNegW : Generator :=
  { tiles := negWCat, tileById := mkTileById negWCat, rules := rulesOf negWCat }

/-- One tile whose edge dictionary is missing the north label. -/
def missCat : List Tile :=
  [⟨1, "A", fun d => if d = Dir.north then none else some "grass", 1, 0, 0⟩]

/-! ### General lemmas about the embedding -/

/-- Unfolding of one main-loop iteration at positive fuel. -/
lemma wfcLoop_succ (g : Generator) (w h : Nat) (stream : Nat → ℚ) (fuel : Nat) (s : WfcState) :
    wfcLoop g w h stream (fuel + 1) s =
      if fullyCollapsed w h s.coll then (afterLoop w h (fuel + 1) s.poss, s.pos)
      else
        match wfcStep g w h stream s with
        | StepRes.brk pos' => (afterLoop w h fuel s.poss, pos')
        | StepRes.fail r pos' => (r, pos')
        | StepRes.cont s' => wfcLoop g w h stream fuel s' := rfl

/-- The two labels of the scenario catalog differ. -/
lemma str_gw : ("grass" = "water") = False := by decide

/-- The two labels of the scenario catalog differ (other order). -/
lemma str_wg : ("water" = "grass") = False := by decide

/-- A label equals itself. -/
lemma str_gg : ("grass" = "grass") = True := by decide

/-- A label equals itself. -/
lemma str_ww : ("water" = "water") = True := by decide

/-- The all-zero random stream: every draw is 0. -/
def stream0 : Nat → ℚ := fun _ => 0

/-- On the scenario catalog, a 2 by 1 run with the all-zero stream collapses
both cells to tile A and succeeds. -/
lemma run21_zero : generate gAB 2 1 stream0 = RunResult.ok [[1, 1]] := by
  rw [generate, generateFull, show (2 * 1 * 100 : Nat) = 199 + 1 by norm_num, wfcLoop_succ]
  norm_num [initState, stream0, fullyCollapsed, wfcStep, findMin, rowMajor, findMinAux,
    bestUpdate, collapseCell, lookupTiles, pickGo, propagate, propagateAux, processNeighbors, neighborList,
    totalMass, setCell, afterLoop, buildGrid, gAB, catAB, tileA, tileB, mkTileById, rulesOf,
    ruleRowFor, canConnect, Dir.opposite, List.range_succ, Finset.sum_range_succ, str_gw, str_wg,
    str_gg, str_ww]
  rw [show (199 : Nat) = 198 + 1 by norm_num, wfcLoop_succ]
  norm_num [initState, stream0, fullyCollapsed, wfcStep, findMin, rowMajor, findMinAux,
    bestUpdate, collapseCell, lookupTiles, pickGo, propagate, propagateAux, processNeighbors, neighborList,
    totalMass, setCell, afterLoop, buildGrid, gAB, catAB, tileA, tileB, mkTileById, rulesOf,
    ruleRowFor, canConnect, Dir.opposite, List.range_succ, Finset.sum_range_succ, str_gw, str_wg,
    str_gg, str_ww]
  rw [show (198 : Nat) = 197 + 1 by norm_num, wfcLoop_succ]
  norm_num [fullyCollapsed, setCell, afterLoop, buildGrid, List.range_succ]

/-- Taking the opposite direction twice is the identity. -/
lemma Dir.opposite_opposite : ∀ d : Dir, d.opposite.opposite = d := by
  intro d
  cases d <;> rfl

/-- Edge-label equality is symmetric, so `can_connect` is symmetric under
swapping the tiles and taking the opposite direction. -/
lemma canConnect_symm (a b : Tile) (d : Dir) :
    (canConnect a b d = some true) ↔ (canConnect b a d.opposite = some true) := by
  rw [canConnect, canConnect, Dir.opposite_opposite]
  cases ha : a.edges d <;> cases hb : b.edges d.opposite <;> simp [eq_comm]

/-- Membership in the fold building one adjacency row. -/
lemma mem_ruleRowFor_aux (t : Tile) (d : Dir) (i : Nat) :
    ∀ (l : List Tile) (acc : Finset Nat),
      (i ∈ l.foldl
          (fun acc other =>
            if canConnect t other d = some true then insert other.id acc else acc) acc) ↔
        (i ∈ acc ∨ ∃ o ∈ l, o.id = i ∧ canConnect t o d = some true) := by
  intro l
  induction l with
  | nil => simp
  | cons o rest ih =>
    intro acc
    rw [List.foldl_cons]
    by_cases hc : canConnect t o d = some true
    · rw [if_pos hc, ih]
      simp only [Finset.mem_insert, List.mem_cons]
      constructor
      · rintro (⟨h | h⟩ | h)
        · exact Or.inr ⟨o, Or.inl rfl, h.symm ▸ rfl, hc⟩
        · exact Or.inl h
        · obtain ⟨o', ho', hid, hcc⟩ := h
          exact Or.inr ⟨o', Or.inr ho', hid, hcc⟩
      · rintro (h | ⟨o', ho' | ho', hid, hcc⟩)
        · exact Or.inl (Or.inr h)
        · exact Or.inl (Or.inl (by rw [← hid, ho']))
        · exact Or.inr ⟨o', ho', hid, hcc⟩
    · rw [if_neg hc, ih]
      simp only [List.mem_cons]
      constructor
      · rintro (h | ⟨o', ho', hid, hcc⟩)
        · exact Or.inl h
        · exact Or.inr ⟨o', Or.inr ho', hid, hcc⟩
      · rintro (h | ⟨o', ho' | ho', hid, hcc⟩)
        · exact Or.inl h
        · exact absurd (ho' ▸ hcc) hc
        · exact Or.inr ⟨o', ho', hid, hcc⟩

/-- An id is in `rules[t.id][d]` exactly when some catalog tile with that id
can be connected in direction `d`. -/
lemma mem_ruleRowFor (t : Tile) (tiles : List Tile) (d : Dir) (i : Nat) :
    i ∈ ruleRowFor t tiles d ↔ ∃ o ∈ tiles, o.id = i ∧ canConnect t o d = some true := by
  rw [ruleRowFor, mem_ruleRowFor_aux]
  simp

/-- A left fold of keyed updates leaves keys it never writes unchanged. -/
lemma foldl_upd_ne {β : Type} (F : Tile → β) (i : Nat) :
    ∀ (l : List Tile) (r : Nat → β), (∀ t ∈ l, t.id ≠ i) →
      l.foldl (fun r t => fun j => if j = t.id then F t else r j) r i = r i := by
  intro l
  induction l with
  | nil => intro r _; rfl
  | cons t rest ih =>
    intro r hne
    rw [List.foldl_cons]
    rw [ih _ fun t' ht' => hne t' (List.mem_cons_of_mem _ ht')]
    rw [if_neg fun h => hne t (List.mem_cons_self t rest) h.symm]

/-- With duplicate-free ids, the keyed-update fold stores `F a` at `a.id`. -/
lemma foldl_upd_apply {β : Type} (F : Tile → β) (a : Tile) :
    ∀ (l : List Tile) (r : Nat → β), (l.map Tile.id).Nodup → a ∈ l →
      l.foldl (fun r t => fun j => if j = t.id then F t else r j) r a.id = F a := by
  intro l
  induction l with
  | nil => intro r _ h; exact absurd h (List.not_mem_nil a)
  | cons t rest ih =>
    intro r hnd ha
    rw [List.map_cons, List.nodup_cons] at hnd
    rw [List.foldl_cons]
    rcases List.mem_cons.mp ha with h | h
    · subst h
      rw [foldl_upd_ne _ _ _ _ fun t' ht' hid => hnd.1 (by
        rw [← hid]
        exact List.mem_map_of_mem Tile.id ht')]
      rw [if_pos rfl]
    · exact ih _ hnd.2 h

/-- With duplicate-free ids, the adjacency table row of a catalog tile is the
row computed for that tile. -/
lemma rulesOf_apply (tiles : List Tile) (a : Tile) (d : Dir)
    (hnd : (tiles.map Tile.id).Nodup) (ha : a ∈ tiles) :
    rulesOf tiles a.id d = ruleRowFor a tiles d := by
  rw [rulesOf]
  exact congrFun
    (foldl_upd_apply (fun t => fun d => ruleRowFor t tiles d) a tiles (fun _ _ => ∅) hnd ha) d

/-- Characterization of the adjacency table of a constructed generator. -/
lemma mem_rules_iff (tiles : List Tile) (g : Generator) (a : Tile) (d : Dir) (i : Nat)
    (hg : mkGenerator tiles = some g) (hnd : (tiles.map Tile.id).Nodup) (ha : a ∈ tiles) :
    i ∈ g.rules a.id d ↔ ∃ o ∈ tiles, o.id = i ∧ canConnect a o d = some true := by
  have hr : g.rules = rulesOf tiles := by
    rw [mkGenerator, computeRules] at hg
    by_cases h : rulesDefined tiles
    · rw [if_pos h] at hg
      cases hg
      rfl
    · rw [if_neg h] at hg
      cases hg
  rw [hr, rulesOf_apply tiles a d hnd ha, mem_ruleRowFor]

/-- Invariant of the entropy scan: when the scan returns a cell, that cell
is un-collapsed and its possibility count is minimal among the un-collapsed
cells of the scanned list and the cell held by the initial accumulator.  The
accumulator hypothesis records that a held minimum `m` satisfies
`entropy <= m < entropy + 1` for its cell, which holds because each noise
draw lies in `[0, 1)`. -/
lemma findMinAux_min (poss : Poss) (coll : Coll) (stream : Nat → ℚ)
    (hs : ∀ i, 0 ≤ stream i ∧ stream i < 1) :
    ∀ (coords : List (Nat × Nat)) (pos : Nat) (best : Option (ℚ × Nat × Nat)) (p : Nat)
      (yx : Nat × Nat),
      (∀ m y0 x0, best = some (m, y0, x0) →
        coll y0 x0 = false ∧ ((poss y0 x0).length : ℚ) ≤ m ∧ m < (poss y0 x0).length + 1) →
      findMinAux poss coll stream coords pos best = (p, some yx) →
      coll yx.1 yx.2 = false ∧
        (∀ b ∈ coords, coll b.1 b.2 = false → (poss yx.1 yx.2).length ≤ (poss b.1 b.2).length) ∧
        (∀ m y0 x0, best = some (m, y0, x0) →
          (poss yx.1 yx.2).length ≤ (poss y0 x0).length) := by
  intro coords
  induction coords with
  | nil =>
    intro pos best p yx hbest hrun
    rw [findMinAux] at hrun
    cases hb : best with
    | none =>
      rw [hb] at hrun
      simp at hrun
    | some b =>
      obtain ⟨m, y0, x0⟩ := b
      rw [hb] at hrun
      simp only [Option.map_some', Prod.mk.injEq, Option.some.injEq] at hrun
      obtain ⟨hcoll, hle, hlt⟩ := hbest m y0 x0 hb
      rw [← hrun.2]
      refine ⟨hcoll, fun b hbmem _ => absurd hbmem (List.not_mem_nil b), ?_⟩
      intro m' y0' x0' hb'
      cases hb'
      exact le_refl _
  | cons c rest ih =>
    intro pos best p yx hbest hrun
    obtain ⟨y, x⟩ := c
    rw [findMinAux] at hrun
    by_cases hcoll : coll y x
    · rw [if_pos hcoll] at hrun
      obtain ⟨h1, h2, h3⟩ := ih pos best p yx hbest hrun
      refine ⟨h1, ?_, h3⟩
      intro b hbmem hbcoll
      rcases List.mem_cons.mp hbmem with hb | hb
      · rw [hb] at hbcoll
        rw [hbcoll] at hcoll
        simp at hcoll
      · exact h2 b hb hbcoll
    · rw [if_neg hcoll] at hrun
      by_cases hlen : (poss y x).length = 0
      · rw [if_pos hlen] at hrun
        simp at hrun
      · rw [if_neg hlen] at hrun
        have hnoise0 : 0 ≤ stream pos * (1 / 10) := by
          have := (hs pos).1
          positivity
        have hnoise1 : stream pos * (1 / 10) < 1 := by
          nlinarith [(hs pos).2, (hs pos).1]
        have hcoll' : coll y x = false := by
          rw [Bool.not_eq_true] at hcoll
          exact hcoll
        -- facts about the updated accumulator
        have hub : ∀ m' y0' x0',
            bestUpdate (((poss y x).length : ℚ) + stream pos * (1 / 10)) y x best
              = some (m', y0', x0') →
            coll y0' x0' = false ∧ ((poss y0' x0').length : ℚ) ≤ m' ∧
              m' < (poss y0' x0').length + 1 := by
          intro m' y0' x0' hb'
          cases hb : best with
          | none =>
            rw [hb, bestUpdate] at hb'
            cases hb'
            exact ⟨hcoll', by linarith, by linarith⟩
          | some b =>
            obtain ⟨m, y0, x0⟩ := b
            rw [hb, bestUpdate] at hb'
            by_cases hcmp : (((poss y x).length : ℚ) + stream pos * (1 / 10)) < m
            · rw [if_pos hcmp] at hb'
              cases hb'
              exact ⟨hcoll', by linarith, by linarith⟩
            · rw [if_neg hcmp] at hb'
              cases hb'
              exact hbest m' y0' x0' hb
        obtain ⟨h1, h2, h3⟩ := ih (pos + 1) _ p yx hub hrun
        refine ⟨h1, ?_, ?_⟩
        · intro b hbmem hbcoll
          rcases List.mem_cons.mp hbmem with hb | hb
          · -- b is the head cell (y, x)
            subst hb
            show (poss yx.1 yx.2).length ≤ (poss y x).length
            cases hbb : best with
            | none =>
              exact h3 _ _ _ (by rw [hbb]; rfl)
            | some b0 =>
              obtain ⟨m, y0, x0⟩ := b0
              by_cases hcmp : (((poss y x).length : ℚ) + stream pos * (1 / 10)) < m
              · exact h3 _ _ _ (by rw [hbb]; simp only [bestUpdate]; rw [if_pos hcmp])
              · -- kept the old best; old best entropy is below head entropy plus one
                have hkept := h3 m y0 x0 (by rw [hbb]; simp only [bestUpdate]; rw [if_neg hcmp])
                obtain ⟨_, hle0, hlt0⟩ := hbest m y0 x0 hbb
                have hq : ((poss y0 x0).length : ℚ) < (poss y x).length + 1 := by
                  push_neg at hcmp
                  linarith
                have hn : (poss y0 x0).length ≤ (poss y x).length := by
                  exact_mod_cast Nat.lt_succ_iff.mp (by exact_mod_cast hq)
                omega
          · exact h2 b hb hbcoll
        · intro m y0 x0 hbb
          cases hbb' : best with
          | none =>
            rw [hbb'] at hbb
            cases hbb
          | some b0 =>
            obtain ⟨m1, y1, x1⟩ := b0
            rw [hbb'] at hbb
            cases hbb
            by_cases hcmp : (((poss y x).length : ℚ) + stream pos * (1 / 10)) < m
            · -- new best is the head cell; head entropy is below the old best plus one
              have hhead := h3 _ _ _ (by rw [hbb']; simp only [bestUpdate]; rw [if_pos hcmp])
              obtain ⟨_, hle0, hlt0⟩ := hbest m y0 x0 hbb'
              have hq : ((poss y x).length : ℚ) < (poss y0 x0).length + 1 := by
                linarith
              have hle1 : (poss y x).length ≤ (poss y0 x0).length := by
                exact_mod_cast Nat.lt_succ_iff.mp (by exact_mod_cast hq)
              omega
            · exact h3 m y0 x0 (by rw [hbb']; simp only [bestUpdate]; rw [if_neg hcmp])

/-- A coordinate pair is scanned exactly when it lies in the grid. -/
lemma mem_rowMajor (w h : Nat) (y x : Nat) : ((y, x) ∈ rowMajor w h) ↔ y < h ∧ x < w := by
  simp [rowMajor]

/-! ### Claim theorems -/

/-- C4: for tiles `a`, `b` of a successfully constructed catalog with unique
ids and any direction `d`, `a` can connect to `b` in direction `d` exactly
when `b` can connect to `a` in the opposite direction, and equivalently the
derived adjacency table satisfies `b.id ∈ rules[a.id][d]` iff
`a.id ∈ rules[b.id][opposite d]`. -/
theorem c4_adjacency_symmetry :
    ∀ (tiles : List Tile) (g : Generator) (a b : Tile) (d : Dir),
      mkGenerator tiles = some g → (tiles.map Tile.id).Nodup → a ∈ tiles → b ∈ tiles →
        ((canConnect a b d = some true ↔ canConnect b a d.opposite = some true) ∧
          (b.id ∈ g.rules a.id d ↔ a.id ∈ g.rules b.id d.opposite)) := by
  intro tiles g a b d hg hnd ha hb
  refine ⟨canConnect_symm a b d, ?_⟩
  rw [mem_rules_iff tiles g a d b.id hg hnd ha,
    mem_rules_iff tiles g b d.opposite a.id hg hnd hb]
  constructor
  · rintro ⟨o, ho, hid, hcc⟩
    have : o = b := List.inj_on_of_nodup_map hnd ho hb hid
    subst this
    exact ⟨a, ha, rfl, (canConnect_symm a o d).mp hcc⟩
  · rintro ⟨o, ho, hid, hcc⟩
    have : o = a := List.inj_on_of_nodup_map hnd ho ha hid
    subst this
    exact ⟨b, hb, rfl, (canConnect_symm o b d).mpr hcc⟩

/-- C4 witness: symmetry instantiated on the concrete two-tile catalog. -/
theorem c4_witness :
    (canConnect tileA tileB Dir.north = some true ↔
        canConnect tileB tileA Dir.north.opposite = some true) ∧
      (tileB.id ∈ gAB.rules tileA.id Dir.north ↔
        tileA.id ∈ gAB.rules tileB.id Dir.north.opposite) :=
  c4_adjacency_symmetry catAB gAB tileA tileB Dir.north rfl (by decide)
    (List.mem_cons_self tileA [tileB]) (by simp [catAB])

/-- C9: the tie-break noise `random.random() * 0.1` added to each cell's
entropy is non-negative and strictly below 1 whenever the raw draws lie in
`[0, 1)`, and consequently the cell selected by `_find_min_entropy_cell`
always has the minimum possibility-set size among all un-collapsed cells:
noise can only break ties between cells of equal integer entropy. -/
theorem c9_noise_bounded_min_selection :
    ∀ (w h : Nat) (poss : Poss) (coll : Coll) (stream : Nat → ℚ) (pos p y x : Nat),
      (∀ i, 0 ≤ stream i ∧ stream i < 1) →
      findMin w h poss coll stream pos = (p, some (y, x)) →
      (∀ i, 0 ≤ stream i * (1 / 10) ∧ stream i * (1 / 10) < 1) ∧
        coll y x = false ∧
        (∀ y' x', y' < h → x' < w → coll y' x' = false →
          (poss y x).length ≤ (poss y' x').length) := by
  intro w h poss coll stream pos p y x hs hrun
  have noise : ∀ i, 0 ≤ stream i * (1 / 10) ∧ stream i * (1 / 10) < 1 := by
    intro i
    constructor
    · have := (hs i).1
      positivity
    · nlinarith [(hs i).1, (hs i).2]
  obtain ⟨h1, h2, _⟩ := findMinAux_min poss coll stream hs (rowMajor w h) pos none p (y, x)
    (fun m y0 x0 h => by cases h) hrun
  exact ⟨noise, h1, fun y' x' hy hx hc => h2 (y', x') ((mem_rowMajor w h y' x').mpr ⟨hy, hx⟩) hc⟩

/-- C9 witness: the minimum-entropy selection applied to a concrete scan on
a 2 by 1 grid with the all-zero stream. -/
theorem c9_witness :
    (∀ i, 0 ≤ stream0 i * (1 / 10) ∧ stream0 i * (1 / 10) < 1) ∧
      (fun _ _ => false : Coll) 0 0 = false ∧
      (∀ y' x', y' < 1 → x' < 2 → (fun _ _ => false : Coll) y' x' = false →
        ((fun _ _ => [1, 2] : Poss) 0 0).length ≤ ((fun _ _ => [1, 2] : Poss) y' x').length) :=
  c9_noise_bounded_min_selection 2 1 (fun _ _ => [1, 2]) (fun _ _ => false) stream0 0 2 0 0
    (by intro i; norm_num [stream0])
    (by norm_num [findMin, rowMajor, findMinAux, bestUpdate, stream0, List.range_succ])

/-- C8: the main loop of `generate` runs with a hard iteration cap of exactly
`width * height * 100` (the loop fuel), and a run whose cap is exhausted
terminates with the iteration-limit failure and returns no grid. -/
theorem c8_iteration_cap :
    ∀ (g : Generator) (w h : Nat) (stream : Nat → ℚ),
      generateFull g w h stream = wfcLoop g w h stream (w * h * 100) (initState g) ∧
      ∀ s : WfcState, (wfcLoop g w h stream 0 s).1 = RunResult.iterLimit := by
  intro g w h stream
  exact ⟨rfl, fun s => rfl⟩

/-- C6: contrary to the claim, a cell with entropy 0 reached during the
selection phase is not reported as a `Contradiction` with coordinates: the
scan returns the same `None` signal as full collapse, `generate` breaks out
of its loop, and the final grid conversion crashes on the empty possibility
set.  Concretely, with the (validly constructed) empty catalog, the
1 by 1 run crashes instead of failing with a contradiction. -/
theorem c6_entropy_zero_not_contradiction :
    findMin 1 1 (fun _ _ => ([] : List Nat)) (fun _ _ => false) stream0 0 = (0, none) ∧
    mkGenerator ([] : List Tile) = some gEmpty ∧
    generate gEmpty 1 1 stream0 = RunResult.crash :=
  ⟨rfl, rfl, rfl⟩

/-- C7 counterexample: a catalog with a duplicated tile id is accepted by
catalog construction (no failure of any kind), contradicting the claim that
duplicate identifiers make construction fail eagerly. -/
theorem c7_counterexample : mkGenerator dupCat = some gDup := rfl

/-- C7 amended: catalog construction performs no validation.  Duplicate tile
ids are accepted (the `tile_by_id` dictionary silently keeps the last), a
non-positive weight is accepted, and only a missing direction edge label
makes construction fail eagerly — with an uncaught key-lookup error from the
adjacency precomputation, not a typed `InvalidCatalog` failure. -/
theorem c7_amended :
    mkGenerator dupCat = some gDup ∧
    mkGenerator negWCat = some gNegW ∧
    ∀ tiles : List Tile, (∃ t ∈ tiles, ∃ d : Dir, t.edges d = none) → mkGenerator tiles = none := by
  refine ⟨rfl, rfl, ?_⟩
  intro tiles ⟨t, ht, d, hd⟩
  have hnd : ¬ rulesDefined tiles := by
    intro hrd
    have := hrd t ht t ht d
    rw [canConnect, hd] at this
    simp at this
  rw [mkGenerator, computeRules, if_neg hnd]

/-- C7 witness: the missing-edge catalog is rejected by construction. -/
theorem c7_witness : mkGenerator missCat = none :=
  c7_amended.2.2 missCat ⟨_, List.mem_singleton.mpr rfl, Dir.north, rfl⟩



lemma processNeighbors_sound (g : Generator) (w h : Nat) (coll : Coll) (center : List Nat) :
    ∀ (nbrs : List (Int × Int × Dir)) (poss : Poss) (acc : List (Int × Int)) (poss' : Poss)
      (acc' : List (Int × Int)),
      processNeighbors g w h coll center nbrs poss acc = some (poss', acc') →
      (∀ y x, coll y x = true → poss' y x = poss y x) ∧
      (∀ y x, ∀ v ∈ poss' y x, v ∈ poss y x) ∧
      (∀ y x, poss y x ≠ [] → poss' y x ≠ []) ∧
      (∀ e ∈ nbrs, ¬(e.1 < 0 ∨ (w : Int) ≤ e.1 ∨ e.2.1 < 0 ∨ (h : Int) ≤ e.2.1) →
        coll e.2.1.toNat e.1.toNat = false →
        ∀ v ∈ poss' e.2.1.toNat e.1.toNat, ∃ t ∈ center, v ∈ g.rules t e.2.2) := by
  intro nbrs
  induction nbrs with
  | nil =>
    intro poss acc poss' acc' hrun
    rw [processNeighbors] at hrun
    cases hrun
    exact ⟨fun _ _ _ => rfl, fun _ _ _ hv => hv, fun _ _ hne => hne,
      fun e he => absurd he (List.not_mem_nil e)⟩
  | cons e rest ih =>
    intro poss acc poss' acc' hrun
    obtain ⟨nx, ny, d⟩ := e
    rw [processNeighbors] at hrun
    by_cases hoob : nx < 0 ∨ (w : Int) ≤ nx ∨ ny < 0 ∨ (h : Int) ≤ ny
    · rw [if_pos hoob] at hrun
      obtain ⟨h1, h2, h3, h4⟩ := ih poss acc poss' acc' hrun
      refine ⟨h1, h2, h3, ?_⟩
      intro e' he' hoob' hcoll'
      rcases List.mem_cons.mp he' with he' | he'
      · rw [he'] at hoob'
        exact absurd hoob hoob'
      · exact h4 e' he' hoob' hcoll'
    · rw [if_neg hoob] at hrun
      by_cases hcoll : coll ny.toNat nx.toNat
      · rw [if_pos hcoll] at hrun
        obtain ⟨h1, h2, h3, h4⟩ := ih poss acc poss' acc' hrun
        refine ⟨h1, h2, h3, ?_⟩
        intro e' he' hoob' hcoll'
        rcases List.mem_cons.mp he' with he' | he'
        · rw [he'] at hcoll'
          simp only at hcoll'
          rw [hcoll'] at hcoll
          exact Bool.noConfusion hcoll
        · exact h4 e' he' hoob' hcoll'
      · rw [if_neg hcoll] at hrun
        simp only at hrun
        set newP := (poss ny.toNat nx.toNat).filter
          (fun v => center.any fun t => decide (v ∈ g.rules t d)) with hnewP
        by_cases hzero : newP.length = 0
        · rw [if_pos hzero] at hrun
          cases hrun
        · rw [if_neg hzero] at hrun
          have hcollF : coll ny.toNat nx.toNat = false := by
            rw [Bool.not_eq_true] at hcoll
            exact hcoll
          have hfiltP : ∀ v ∈ newP, ∃ t ∈ center, v ∈ g.rules t d := by
            intro v hv
            rw [hnewP, List.mem_filter] at hv
            obtain ⟨t, ht, hvt⟩ := List.any_eq_true.mp hv.2
            exact ⟨t, ht, of_decide_eq_true hvt⟩
          by_cases hlt : newP.length < (poss ny.toNat nx.toNat).length
          · rw [if_pos hlt] at hrun
            obtain ⟨h1, h2, h3, h4⟩ := ih _ _ poss' acc' hrun
            have hset : ∀ y x, setCell poss ny.toNat nx.toNat newP y x = poss y x ∨
                (y = ny.toNat ∧ x = nx.toNat ∧
                  setCell poss ny.toNat nx.toNat newP y x = newP) := by
              intro y x
              rw [setCell]
              by_cases hyx : y = ny.toNat ∧ x = nx.toNat
              · rw [if_pos hyx]
                exact Or.inr ⟨hyx.1, hyx.2, rfl⟩
              · rw [if_neg hyx]
                exact Or.inl rfl
            refine ⟨?_, ?_, ?_, ?_⟩
            · intro y x hc
              rw [h1 y x hc]
              rcases hset y x with hq | ⟨hy, hx, hq⟩
              · exact hq
              · rw [hy, hx] at hc
                rw [hc] at hcollF
                cases hcollF
            · intro y x v hv
              have := h2 y x v hv
              rcases hset y x with hq | ⟨hy, hx, hq⟩
              · rw [hq] at this
                exact this
              · rw [hq] at this
                rw [hy, hx]
                exact List.mem_of_mem_filter this
            · intro y x hne
              apply h3
              rcases hset y x with hq | ⟨hy, hx, hq⟩
              · rw [hq]
                exact hne
              · rw [hq]
                intro hemp
                rw [hemp] at hzero
                exact hzero rfl
            · intro e' he' hoob' hcoll'
              rcases List.mem_cons.mp he' with he' | he'
              · -- the freshly processed neighbor
                rw [he']
                intro v hv
                have hsub := h2 ny.toNat nx.toNat v hv
                rw [setCell, if_pos ⟨rfl, rfl⟩] at hsub
                exact hfiltP v hsub
              · exact h4 e' he' hoob' hcoll'
          · rw [if_neg hlt] at hrun
            -- no shrink: the filter kept everything
            have hlen : newP.length = (poss ny.toNat nx.toNat).length := by
              have := List.length_filter_le
                (fun v => center.any fun t => decide (v ∈ g.rules t d)) (poss ny.toNat nx.toNat)
              rw [← hnewP] at this
              omega
            have heq : newP = poss ny.toNat nx.toNat := by
              rw [hnewP]
              exact List.Sublist.eq_of_length (List.filter_sublist _) hlen
            obtain ⟨h1, h2, h3, h4⟩ := ih poss acc poss' acc' hrun
            refine ⟨h1, h2, h3, ?_⟩
            intro e' he' hoob' hcoll'
            rcases List.mem_cons.mp he' with he' | he'
            · rw [he']
              intro v hv
              have := h2 ny.toNat nx.toNat v hv
              rw [← heq] at this
              exact hfiltP v this
            · exact h4 e' he' hoob' hcoll'



lemma propagateAux_sound (g : Generator) (w h : Nat) (coll : Coll) :
    ∀ (fuel : Nat) (stack : List (Int × Int)) (poss poss' : Poss),
      propagateAux g w h coll fuel stack poss = some (some poss') →
      (∀ y x, coll y x = true → poss' y x = poss y x) ∧
      (∀ y x, ∀ v ∈ poss' y x, v ∈ poss y x) ∧
      (∀ y x, poss y x ≠ [] → poss' y x ≠ []) := by
  intro fuel
  induction fuel with
  | zero =>
    intro stack poss poss' hrun
    cases stack with
    | nil =>
      rw [propagateAux] at hrun
      cases hrun
      exact ⟨fun _ _ _ => rfl, fun _ _ _ hv => hv, fun _ _ hne => hne⟩
    | cons c rest =>
      rw [propagateAux] at hrun
      cases hrun
  | succ fuel ih =>
    intro stack poss poss' hrun
    cases stack with
    | nil =>
      rw [propagateAux] at hrun
      cases hrun
      exact ⟨fun _ _ _ => rfl, fun _ _ _ hv => hv, fun _ _ hne => hne⟩
    | cons c rest =>
      obtain ⟨cx, cy⟩ := c
      rw [propagateAux] at hrun
      cases hpn : processNeighbors g w h coll (poss cy.toNat cx.toNat) (neighborList cx cy)
          poss [] with
      | none =>
        rw [hpn] at hrun
        cases hrun
      | some pr =>
        obtain ⟨poss₁, pushes⟩ := pr
        rw [hpn] at hrun
        obtain ⟨p1, p2, p3, _⟩ := processNeighbors_sound g w h coll _ _ poss [] poss₁ pushes hpn
        obtain ⟨q1, q2, q3⟩ := ih _ poss₁ poss' hrun
        refine ⟨?_, ?_, ?_⟩
        · intro y x hc
          rw [q1 y x hc, p1 y x hc]
        · intro y x v hv
          exact p2 y x v (q2 y x v hv)
        · intro y x hne
          exact q3 y x (p3 y x hne)

lemma propagate_sound (g : Generator) (w h : Nat) (poss : Poss) (coll : Coll) (x y : Nat)
    (poss' : Poss) (hrun : propagate g w h poss coll x y = some (some poss')) :
    (∀ y0 x0, coll y0 x0 = true → poss' y0 x0 = poss y0 x0) ∧
    (∀ y0 x0, ∀ v ∈ poss' y0 x0, v ∈ poss y0 x0) ∧
    (∀ y0 x0, poss y0 x0 ≠ [] → poss' y0 x0 ≠ []) :=
  propagateAux_sound g w h coll _ _ poss poss' hrun



lemma propagate_first (g : Generator) (w h : Nat) (poss : Poss) (coll : Coll) (x y : Nat)
    (poss' : Poss) (hrun : propagate g w h poss coll x y = some (some poss')) :
    ∀ e ∈ neighborList (x : Int) (y : Int),
      ¬(e.1 < 0 ∨ (w : Int) ≤ e.1 ∨ e.2.1 < 0 ∨ (h : Int) ≤ e.2.1) →
      coll e.2.1.toNat e.1.toNat = false →
      ∀ v ∈ poss' e.2.1.toNat e.1.toNat, ∃ t ∈ poss y x, v ∈ g.rules t e.2.2 := by
  rw [propagate, propagateAux] at hrun
  rw [Int.toNat_natCast, Int.toNat_natCast] at hrun
  cases hpn : processNeighbors g w h coll (poss y x) (neighborList (x : Int) (y : Int))
      poss [] with
  | none =>
    rw [hpn] at hrun
    cases hrun
  | some pr =>
    obtain ⟨poss₁, pushes⟩ := pr
    rw [hpn] at hrun
    obtain ⟨_, _, _, h4⟩ :=
      processNeighbors_sound g w h coll (poss y x) _ poss [] poss₁ pushes hpn
    obtain ⟨_, q2, _⟩ := propagateAux_sound g w h coll _ _ poss₁ poss' hrun
    intro e he hoob hcoll v hv
    exact h4 e he hoob hcoll v (q2 _ _ v hv)



lemma mkGenerator_parts (tiles : List Tile) (g : Generator) (hg : mkGenerator tiles = some g) :
    g.tiles = tiles ∧ g.tileById = mkTileById tiles ∧ g.rules = rulesOf tiles := by
  rw [mkGenerator, computeRules] at hg
  by_cases h : rulesDefined tiles
  · rw [if_pos h] at hg
    cases hg
    exact ⟨rfl, rfl, rfl⟩
  · rw [if_neg h] at hg
    cases hg

lemma findMinAux_some (poss : Poss) (coll : Coll) (stream : Nat → ℚ) :
    ∀ (coords : List (Nat × Nat)) (pos : Nat) (best : Option (ℚ × Nat × Nat)) (p : Nat)
      (yx : Nat × Nat),
      (∀ m y0 x0, best = some (m, y0, x0) → coll y0 x0 = false) →
      findMinAux poss coll stream coords pos best = (p, some yx) →
      coll yx.1 yx.2 = false ∧ (yx ∈ coords ∨ ∃ m, best = some (m, yx.1, yx.2)) := by
  intro coords
  induction coords with
  | nil =>
    intro pos best p yx hbest hrun
    rw [findMinAux] at hrun
    cases hb : best with
    | none =>
      rw [hb] at hrun
      simp at hrun
    | some b =>
      obtain ⟨m, y0, x0⟩ := b
      rw [hb] at hrun
      simp only [Option.map_some', Prod.mk.injEq, Option.some.injEq] at hrun
      rw [← hrun.2]
      exact ⟨hbest m y0 x0 hb, Or.inr ⟨m, rfl⟩⟩
  | cons c rest ih =>
    intro pos best p yx hbest hrun
    obtain ⟨y, x⟩ := c
    rw [findMinAux] at hrun
    by_cases hcoll : coll y x
    · rw [if_pos hcoll] at hrun
      obtain ⟨h1, h2⟩ := ih pos best p yx hbest hrun
      refine ⟨h1, ?_⟩
      rcases h2 with h2 | h2
      · exact Or.inl (List.mem_cons_of_mem _ h2)
      · exact Or.inr h2
    · rw [if_neg hcoll] at hrun
      by_cases hlen : (poss y x).length = 0
      · rw [if_pos hlen] at hrun
        simp at hrun
      · rw [if_neg hlen] at hrun
        have hcollF : coll y x = false := by
          rw [Bool.not_eq_true] at hcoll
          exact hcoll
        have hub : ∀ m y0 x0,
            bestUpdate (((poss y x).length : ℚ) + stream pos * (1 / 10)) y x best
              = some (m, y0, x0) → coll y0 x0 = false := by
          intro m y0 x0 hb'
          cases hb : best with
          | none =>
            rw [hb] at hb'
            simp only [bestUpdate] at hb'
            cases hb'
            exact hcollF
          | some b =>
            obtain ⟨m1, c1⟩ := b
            rw [hb] at hb'
            simp only [bestUpdate] at hb'
            by_cases hcmp : (((poss y x).length : ℚ) + stream pos * (1 / 10)) < m1
            · rw [if_pos hcmp] at hb'
              cases hb'
              exact hcollF
            · rw [if_neg hcmp] at hb'
              cases hb'
              exact hbest _ _ _ hb
        obtain ⟨h1, h2⟩ := ih (pos + 1) _ p yx hub hrun
        refine ⟨h1, ?_⟩
        rcases h2 with h2 | h2
        · exact Or.inl (List.mem_cons_of_mem _ h2)
        · obtain ⟨m, hm⟩ := h2
          cases hb : best with
          | none =>
            rw [hb] at hm
            simp only [bestUpdate] at hm
            cases hm
            exact Or.inl (List.mem_cons_self _ _)
          | some b =>
            obtain ⟨m1, c1⟩ := b
            rw [hb] at hm
            simp only [bestUpdate] at hm
            by_cases hcmp : (((poss y x).length : ℚ) + stream pos * (1 / 10)) < m1
            · rw [if_pos hcmp] at hm
              cases hm
              exact Or.inl (List.mem_cons_self _ _)
            · rw [if_neg hcmp] at hm
              cases hm
              exact Or.inr ⟨m, rfl⟩

lemma bestUpdate_ne_none (ewn : ℚ) (y x : Nat) (best : Option (ℚ × Nat × Nat)) :
    bestUpdate ewn y x best ≠ none := by
  cases best with
  | none =>
    rw [bestUpdate]
    exact Option.some_ne_none _
  | some b =>
    obtain ⟨m, c⟩ := b
    rw [bestUpdate]
    by_cases hcmp : ewn < m
    · rw [if_pos hcmp]
      exact Option.some_ne_none _
    · rw [if_neg hcmp]
      exact Option.some_ne_none _

lemma findMinAux_none (poss : Poss) (coll : Coll) (stream : Nat → ℚ) :
    ∀ (coords : List (Nat × Nat)) (pos : Nat) (best : Option (ℚ × Nat × Nat)) (p : Nat),
      findMinAux poss coll stream coords pos best = (p, none) →
      (∃ b ∈ coords, coll b.1 b.2 = false ∧ (poss b.1 b.2).length = 0) ∨
        ((∀ b ∈ coords, coll b.1 b.2 = true) ∧ best = none) := by
  intro coords
  induction coords with
  | nil =>
    intro pos best p hrun
    rw [findMinAux] at hrun
    cases hb : best with
    | none => exact Or.inr ⟨fun b hb' => absurd hb' (List.not_mem_nil b), rfl⟩
    | some b =>
      rw [hb] at hrun
      simp at hrun
  | cons c rest ih =>
    intro pos best p hrun
    obtain ⟨y, x⟩ := c
    rw [findMinAux] at hrun
    by_cases hcoll : coll y x
    · rw [if_pos hcoll] at hrun
      rcases ih pos best p hrun with h | ⟨hall, hb⟩
      · obtain ⟨b, hbmem, hbc⟩ := h
        exact Or.inl ⟨b, List.mem_cons_of_mem _ hbmem, hbc⟩
      · refine Or.inr ⟨?_, hb⟩
        intro b hbmem
        rcases List.mem_cons.mp hbmem with hb' | hb'
        · rw [hb']
          exact hcoll
        · exact hall b hb'
    · rw [if_neg hcoll] at hrun
      by_cases hlen : (poss y x).length = 0
      · rw [if_pos hlen] at hrun
        refine Or.inl ⟨(y, x), List.mem_cons_self _ _, ?_, hlen⟩
        rw [Bool.not_eq_true] at hcoll
        exact hcoll
      · rw [if_neg hlen] at hrun
        rcases ih (pos + 1) _ p hrun with h | ⟨_, hb⟩
        · obtain ⟨b, hbmem, hbc⟩ := h
          exact Or.inl ⟨b, List.mem_cons_of_mem _ hbmem, hbc⟩
        · exact absurd hb (bestUpdate_ne_none _ _ _ _)

lemma pickGo_mem : ∀ (cand : List Tile) (u : ℚ) (i : Nat),
    pickGo cand u = some i → ∃ t ∈ cand, t.id = i := by
  intro cand
  induction cand with
  | nil =>
    intro u i hrun
    rw [pickGo] at hrun
    cases hrun
  | cons t rest ih =>
    intro u i hrun
    cases rest with
    | nil =>
      rw [pickGo] at hrun
      cases hrun
      exact ⟨t, List.mem_cons_self _ _, rfl⟩
    | cons t' ts =>
      rw [pickGo] at hrun
      by_cases hcmp : u < t.weight
      · rw [if_pos hcmp] at hrun
        cases hrun
        exact ⟨t, List.mem_cons_self _ _, rfl⟩
      · rw [if_neg hcmp] at hrun
        obtain ⟨t0, ht0, hid⟩ := ih _ i hrun
        exact ⟨t0, List.mem_cons_of_mem _ ht0, hid⟩

lemma lookupTiles_mem (f : Nat → Option Tile) :
    ∀ (s : List Nat) (cand : List Tile), lookupTiles f s = some cand →
      ∀ t ∈ cand, ∃ i ∈ s, f i = some t := by
  intro s
  induction s with
  | nil =>
    intro cand hrun t ht
    rw [lookupTiles] at hrun
    cases hrun
    exact absurd ht (List.not_mem_nil t)
  | cons i rest ih =>
    intro cand hrun t ht
    rw [lookupTiles] at hrun
    cases hf : f i with
    | none =>
      rw [hf] at hrun
      cases hrun
    | some t0 =>
      rw [hf] at hrun
      cases hrest : lookupTiles f rest with
      | none =>
        rw [hrest] at hrun
        cases hrun
      | some cand0 =>
        rw [hrest] at hrun
        simp only [Option.map_some', Option.some.injEq] at hrun
        rw [← hrun] at ht
        rcases List.mem_cons.mp ht with ht' | ht'
        · exact ⟨i, List.mem_cons_self _ _, by rw [hf, ht']⟩
        · obtain ⟨j, hj, hfj⟩ := ih cand0 hrest t ht'
          exact ⟨j, List.mem_cons_of_mem _ hj, hfj⟩

lemma mkTileById_aux (i : Nat) (t : Tile) :
    ∀ (l : List Tile) (m : Nat → Option Tile),
      (l.foldl (fun m t => fun j => if j = t.id then some t else m j) m) i = some t →
      m i = some t ∨ (t ∈ l ∧ t.id = i) := by
  intro l
  induction l with
  | nil =>
    intro m hrun
    exact Or.inl hrun
  | cons a l ih =>
    intro m hrun
    rw [List.foldl_cons] at hrun
    rcases ih _ hrun with h | ⟨hmem, hid⟩
    · by_cases hi : i = a.id
      · rw [if_pos hi] at h
        cases h
        exact Or.inr ⟨List.mem_cons_self _ _, hi.symm⟩
      · rw [if_neg hi] at h
        exact Or.inl h
    · exact Or.inr ⟨List.mem_cons_of_mem _ hmem, hid⟩

lemma mkTileById_spec (tiles : List Tile) (i : Nat) (t : Tile)
    (h : mkTileById tiles i = some t) : t.id = i ∧ t ∈ tiles := by
  rw [mkTileById] at h
  rcases mkTileById_aux i t tiles _ h with h' | ⟨hmem, hid⟩
  · cases h'
  · exact ⟨hid, hmem⟩

lemma collapseCell_mem (tiles : List Tile) (g : Generator) (s : List Nat) (stream : Nat → ℚ)
    (pos pos' : Nat) (chosen : Nat) (hg : mkGenerator tiles = some g)
    (hrun : collapseCell g s stream pos = (pos', some chosen)) :
    chosen ∈ s ∧ pos' = pos + 1 := by
  rw [collapseCell] at hrun
  cases hlk : lookupTiles g.tileById s with
  | none =>
    rw [hlk] at hrun
    simp at hrun
  | some cand =>
    rw [hlk] at hrun
    simp only at hrun
    by_cases htot : (cand.map Tile.weight).sum ≤ 0
    · rw [if_pos htot] at hrun
      simp at hrun
    · rw [if_neg htot] at hrun
      simp only [Prod.mk.injEq, Option.some.injEq] at hrun
      obtain ⟨t, ht, hid⟩ := pickGo_mem cand _ chosen hrun.2
      obtain ⟨i, hi, hfi⟩ := lookupTiles_mem g.tileById s cand hlk t ht
      rw [(mkGenerator_parts tiles g hg).2.1] at hfi
      obtain ⟨hid', _⟩ := mkTileById_spec tiles i t hfi
      rw [← hid, hid']
      exact ⟨hi, hrun.1.symm⟩



lemma wfcLoop_zero (g : Generator) (w h : Nat) (stream : Nat → ℚ) (s : WfcState) :
    wfcLoop g w h stream 0 s = (RunResult.iterLimit, s.pos) := rfl

lemma fullyCollapsed_iff (w h : Nat) (coll : Coll) :
    fullyCollapsed w h coll = true ↔ ∀ y < h, ∀ x < w, coll y x = true := by
  simp [fullyCollapsed, List.all_eq_true, List.mem_range]

lemma buildGrid_some (w h : Nat) (poss : Poss) (grid : List (List Nat))
    (hb : buildGrid w h poss = some grid) :
    (∀ y < h, ∀ x < w, poss y x ≠ []) ∧
      grid = (List.range h).map fun y => (List.range w).map fun x => (poss y x).headD 0 := by
  rw [buildGrid] at hb
  by_cases hc : ((List.range h).all fun y => (List.range w).all fun x => !(poss y x).isEmpty) = true
  · rw [if_pos hc] at hb
    cases hb
    refine ⟨?_, rfl⟩
    intro y hy x hx
    have h1 := List.all_eq_true.mp hc y (List.mem_range.mpr hy)
    have h2 := List.all_eq_true.mp h1 x (List.mem_range.mpr hx)
    simp at h2
    exact h2
  · rw [if_neg hc] at hb
    cases hb

lemma headD_mem (l : List Nat) (hne : l ≠ []) (d : Nat) : l.headD d ∈ l := by
  cases l with
  | nil => exact absurd rfl hne
  | cons a t => exact List.mem_cons_self a t

lemma cellAt_grid (h w : Nat) (f : Nat → Nat → Nat) (y x : Nat) (hy : y < h) (hx : x < w) :
    cellAt ((List.range h).map fun y => (List.range w).map fun x => f y x) y x = f y x := by
  rw [cellAt]
  have h1 : y < ((List.range h).map fun y => (List.range w).map fun x => f y x).length := by
    simpa using hy
  have e1 : ((List.range h).map fun y => (List.range w).map fun x => f y x).getD y []
      = (List.range w).map fun x => f y x := by
    rw [List.getD_eq_getElem _ _ h1, List.getElem_map, List.getElem_range]
  rw [e1]
  have h2 : x < ((List.range w).map fun x => f y x).length := by
    simpa using hx
  rw [List.getD_eq_getElem _ _ h2, List.getElem_map, List.getElem_range]

lemma wfcStep_brk_inv (g : Generator) (w h : Nat) (stream : Nat → ℚ) (s : WfcState)
    (pos' : Nat) (hrun : wfcStep g w h stream s = StepRes.brk pos') :
    findMin w h s.poss s.coll stream s.pos = (pos', none) := by
  rw [wfcStep] at hrun
  rcases hfm : findMin w h s.poss s.coll stream s.pos with ⟨q, o⟩
  rw [hfm] at hrun
  cases o with
  | none =>
    simp only at hrun
    cases hrun
    rfl
  | some yx =>
    obtain ⟨y, x⟩ := yx
    simp only at hrun
    rcases hcc : collapseCell g (s.poss y x) stream q with ⟨q2, oc⟩
    rw [hcc] at hrun
    cases oc with
    | none => cases hrun
    | some chosen =>
      simp only at hrun
      cases hpp : propagate g w h (setCell s.poss y x [chosen]) (setCell s.coll y x true) x y with
      | none =>
        rw [hpp] at hrun
        cases hrun
      | some o2 =>
        rw [hpp] at hrun
        cases o2 with
        | none => cases hrun
        | some poss2 => cases hrun

lemma wfcStep_fail_inv (g : Generator) (w h : Nat) (stream : Nat → ℚ) (s : WfcState)
    (r : RunResult) (pos' : Nat) (hrun : wfcStep g w h stream s = StepRes.fail r pos') :
    r = RunResult.crash ∨ ∃ x y, r = RunResult.contradiction x y := by
  rw [wfcStep] at hrun
  rcases hfm : findMin w h s.poss s.coll stream s.pos with ⟨q, o⟩
  rw [hfm] at hrun
  cases o with
  | none =>
    simp only at hrun
    cases hrun
  | some yx =>
    obtain ⟨y, x⟩ := yx
    simp only at hrun
    rcases hcc : collapseCell g (s.poss y x) stream q with ⟨q2, oc⟩
    rw [hcc] at hrun
    cases oc with
    | none =>
      cases hrun
      exact Or.inl rfl
    | some chosen =>
      simp only at hrun
      cases hpp : propagate g w h (setCell s.poss y x [chosen]) (setCell s.coll y x true) x y with
      | none =>
        rw [hpp] at hrun
        cases hrun
        exact Or.inl rfl
      | some o2 =>
        rw [hpp] at hrun
        cases o2 with
        | none =>
          cases hrun
          exact Or.inr ⟨x, y, rfl⟩
        | some poss2 => cases hrun

lemma wfcStep_cont_inv (g : Generator) (w h : Nat) (stream : Nat → ℚ) (s s' : WfcState)
    (hrun : wfcStep g w h stream s = StepRes.cont s') :
    ∃ pos' y x pos'' chosen,
      findMin w h s.poss s.coll stream s.pos = (pos', some (y, x)) ∧
      collapseCell g (s.poss y x) stream pos' = (pos'', some chosen) ∧
      propagate g w h (setCell s.poss y x [chosen]) (setCell s.coll y x true) x y
        = some (some s'.poss) ∧
      s'.coll = setCell s.coll y x true ∧ s'.pos = pos'' := by
  rw [wfcStep] at hrun
  rcases hfm : findMin w h s.poss s.coll stream s.pos with ⟨q, o⟩
  rw [hfm] at hrun
  cases o with
  | none =>
    simp only at hrun
    cases hrun
  | some yx =>
    obtain ⟨y, x⟩ := yx
    simp only at hrun
    rcases hcc : collapseCell g (s.poss y x) stream q with ⟨q2, oc⟩
    rw [hcc] at hrun
    cases oc with
    | none => cases hrun
    | some chosen =>
      simp only at hrun
      cases hpp : propagate g w h (setCell s.poss y x [chosen]) (setCell s.coll y x true) x y with
      | none =>
        rw [hpp] at hrun
        cases hrun
      | some o2 =>
        rw [hpp] at hrun
        cases o2 with
        | none => cases hrun
        | some poss2 =>
          cases hrun
          exact ⟨q, y, x, q2, chosen, rfl, hcc, hpp, rfl, rfl⟩



lemma wfcLoop_ok_induct (g : Generator) (w h : Nat) (stream : Nat → ℚ)
    (P : Poss → Coll → Prop)
    (hstep : ∀ s s', P s.poss s.coll → wfcStep g w h stream s = StepRes.cont s' →
      P s'.poss s'.coll) :
    ∀ (fuel : Nat) (s : WfcState) (grid : List (List Nat)) (p : Nat),
      P s.poss s.coll → wfcLoop g w h stream fuel s = (RunResult.ok grid, p) →
      ∃ (poss' : Poss) (coll' : Coll), P poss' coll' ∧
        (∀ y < h, ∀ x < w, coll' y x = true) ∧
        buildGrid w h poss' = some grid := by
  intro fuel
  induction fuel with
  | zero =>
    intro s grid p hP hrun
    rw [wfcLoop_zero] at hrun
    cases hrun
  | succ fuel ih =>
    intro s grid p hP hrun
    rw [wfcLoop_succ] at hrun
    by_cases hfc : fullyCollapsed w h s.coll
    · rw [if_pos hfc] at hrun
      have hfst : afterLoop w h (fuel + 1) s.poss = RunResult.ok grid :=
        congrArg Prod.fst hrun
      rw [afterLoop, if_neg (Nat.succ_ne_zero fuel)] at hfst
      cases hbg : buildGrid w h s.poss with
      | none =>
        rw [hbg] at hfst
        cases hfst
      | some grid' =>
        rw [hbg] at hfst
        cases hfst
        exact ⟨s.poss, s.coll, hP, (fullyCollapsed_iff w h s.coll).mp hfc, hbg⟩
    · rw [if_neg hfc] at hrun
      cases hstep' : wfcStep g w h stream s with
      | brk pos' =>
        rw [hstep'] at hrun
        simp only at hrun
        have hfst : afterLoop w h fuel s.poss = RunResult.ok grid := congrArg Prod.fst hrun
        by_cases hfuel : fuel = 0
        · rw [afterLoop, if_pos hfuel] at hfst
          cases hfst
        · rw [afterLoop, if_neg hfuel] at hfst
          cases hbg : buildGrid w h s.poss with
          | none =>
            rw [hbg] at hfst
            cases hfst
          | some grid' =>
            rw [hbg] at hfst
            cases hfst
            have hfm := wfcStep_brk_inv g w h stream s pos' hstep'
            rcases findMinAux_none s.poss s.coll stream (rowMajor w h) s.pos none pos' hfm
              with hempty | ⟨hall, _⟩
            · obtain ⟨b, hbmem, hbcoll, hblen⟩ := hempty
              obtain ⟨hy, hx⟩ := (mem_rowMajor w h b.1 b.2).mp (by
                obtain ⟨by1, bx1⟩ := b
                exact hbmem)
              have hne := (buildGrid_some w h s.poss _ hbg).1 b.1 hy b.2 hx
              rw [List.length_eq_zero] at hblen
              exact absurd hblen hne
            · refine ⟨s.poss, s.coll, hP, ?_, hbg⟩
              intro y hy x hx
              exact hall (y, x) ((mem_rowMajor w h y x).mpr ⟨hy, hx⟩)
      | fail r pos' =>
        rw [hstep'] at hrun
        simp only at hrun
        have hfst : r = RunResult.ok grid := congrArg Prod.fst hrun
        rcases wfcStep_fail_inv g w h stream s r pos' hstep' with hr | ⟨x, y, hr⟩
        · rw [hr] at hfst
          cases hfst
        · rw [hr] at hfst
          cases hfst
      | cont s' =>
        rw [hstep'] at hrun
        exact ih s' grid p (hstep s s' hP hstep') hrun



/-- Every id in every possibility set is the id of some catalog tile. -/
def idsOk (tiles : List Tile) (poss : Poss) : Prop :=
  ∀ y x, ∀ v ∈ poss y x, v ∈ tiles.map Tile.id

lemma idsOk_step (tiles : List Tile) (g : Generator) (w h : Nat) (stream : Nat → ℚ)
    (hg : mkGenerator tiles = some g) (s s' : WfcState) (hP : idsOk tiles s.poss)
    (hrun : wfcStep g w h stream s = StepRes.cont s') : idsOk tiles s'.poss := by
  obtain ⟨pos', y, x, pos'', chosen, hfm, hcc, hpp, hcol, hpos⟩ :=
    wfcStep_cont_inv g w h stream s s' hrun
  obtain ⟨hmem, _⟩ := collapseCell_mem tiles g _ stream pos' pos'' chosen hg hcc
  obtain ⟨_, q2, _⟩ := propagate_sound g w h _ _ x y s'.poss hpp
  intro y0 x0 v hv
  have hv' := q2 y0 x0 v hv
  rw [setCell] at hv'
  by_cases hyx : y0 = y ∧ x0 = x
  · rw [if_pos hyx] at hv'
    rw [List.mem_singleton] at hv'
    rw [hv']
    exact hP y x chosen hmem
  · rw [if_neg hyx] at hv'
    exact hP y0 x0 v hv'

/-- C2: when `generate` returns a grid, the grid is a height-by-width
row-major array (`y` outer, `x` inner) and every one of its cells holds one
tile identifier drawn from the loaded catalog. -/
theorem c2_totality :
    ∀ (tiles : List Tile) (g : Generator) (w h : Nat) (stream : Nat → ℚ)
      (grid : List (List Nat)),
      mkGenerator tiles = some g →
      generate g w h stream = RunResult.ok grid →
      grid.length = h ∧ (∀ row ∈ grid, row.length = w) ∧
        (∀ y < h, ∀ x < w, cellAt grid y x ∈ tiles.map Tile.id) := by
  intro tiles g w h stream grid hg hrun
  rw [generate, generateFull] at hrun
  rcases hW : wfcLoop g w h stream (w * h * 100) (initState g) with ⟨r, p⟩
  rw [hW] at hrun
  cases hrun
  have hinit : idsOk tiles (initState g).poss := by
    intro y x v hv
    rw [initState] at hv
    simp only at hv
    rw [(mkGenerator_parts tiles g hg).1] at hv
    exact List.mem_dedup.mp hv
  obtain ⟨poss', coll', hP, hallc, hbg⟩ :=
    wfcLoop_ok_induct g w h stream (fun poss _ => idsOk tiles poss)
      (fun s s' hPs hst => idsOk_step tiles g w h stream hg s s' hPs hst)
      (w * h * 100) (initState g) grid p hinit hW
  obtain ⟨hne, hgrid⟩ := buildGrid_some w h poss' grid hbg
  refine ⟨?_, ?_, ?_⟩
  · rw [hgrid]
    simp
  · intro row hrow
    rw [hgrid] at hrow
    obtain ⟨y, _, hrow⟩ := List.mem_map.mp hrow
    rw [← hrow]
    simp
  · intro y hy x hx
    rw [hgrid, cellAt_grid h w _ y x hy hx]
    exact hP y x _ (headD_mem (poss' y x) (hne y hy x hx) 0)

/-- C2 witness: totality on the concrete 2 by 1 run of the scenario
catalog. -/
theorem c2_witness :
    ([[1, 1]] : List (List Nat)).length = 1 ∧ (∀ row ∈ ([[1, 1]] : List (List Nat)), row.length = 2) ∧
      (∀ y < 1, ∀ x < 2, cellAt [[1, 1]] y x ∈ catAB.map Tile.id) :=
  c2_totality catAB gAB 2 1 stream0 [[1, 1]] rfl run21_zero



lemma rules_symm_ids (tiles : List Tile) (g : Generator) (hg : mkGenerator tiles = some g)
    (hnd : (tiles.map Tile.id).Nodup) (i j : Nat) (hi : i ∈ tiles.map Tile.id)
    (hj : j ∈ tiles.map Tile.id) (d : Dir) :
    i ∈ g.rules j d ↔ j ∈ g.rules i d.opposite := by
  obtain ⟨a, ha, hai⟩ := List.mem_map.mp hi
  obtain ⟨b, hb, hbj⟩ := List.mem_map.mp hj
  rw [← hai, ← hbj]
  rw [mem_rules_iff tiles g b d a.id hg hnd hb, mem_rules_iff tiles g a d.opposite b.id hg hnd ha]
  constructor
  · rintro ⟨o, ho, hid, hcc⟩
    have : o = a := List.inj_on_of_nodup_map hnd ho ha hid
    subst this
    exact ⟨b, hb, rfl, (canConnect_symm b o d).mp hcc⟩
  · rintro ⟨o, ho, hid, hcc⟩
    have : o = b := List.inj_on_of_nodup_map hnd ho hb hid
    subst this
    have := (canConnect_symm a o d.opposite).mp hcc
    rw [Dir.opposite_opposite] at this
    exact ⟨a, ha, rfl, this⟩

/-- Cell `(y', x')` is the in-grid neighbor of `(y, x)` in direction `d`. -/
def adj (w h : Nat) (y x y' x' : Nat) (d : Dir) : Prop :=
  y < h ∧ x < w ∧ y' < h ∧ x' < w ∧
    ((d = Dir.north ∧ x' = x ∧ y' + 1 = y) ∨
      (d = Dir.south ∧ x' = x ∧ y' = y + 1) ∨
      (d = Dir.east ∧ y' = y ∧ x' = x + 1) ∨
      (d = Dir.west ∧ y' = y ∧ x' + 1 = x))

lemma adj_symm (w h y x y' x' : Nat) (d : Dir) (hadj : adj w h y x y' x' d) :
    adj w h y' x' y x d.opposite := by
  obtain ⟨h1, h2, h3, h4, hc⟩ := hadj
  refine ⟨h3, h4, h1, h2, ?_⟩
  rcases hc with ⟨hd, hx, hy⟩ | ⟨hd, hx, hy⟩ | ⟨hd, hy, hx⟩ | ⟨hd, hy, hx⟩ <;> subst hd
  · exact Or.inr (Or.inl ⟨rfl, hx.symm, hy.symm⟩)
  · exact Or.inl ⟨rfl, hx.symm, hy.symm⟩
  · exact Or.inr (Or.inr (Or.inr ⟨rfl, hy.symm, hx.symm⟩))
  · exact Or.inr (Or.inr (Or.inl ⟨rfl, hy.symm, hx.symm⟩))

lemma adj_ne (w h y x y' x' : Nat) (d : Dir) (hadj : adj w h y x y' x' d) :
    ¬(y' = y ∧ x' = x) := by
  obtain ⟨_, _, _, _, hc⟩ := hadj
  rintro ⟨hy, hx⟩
  rcases hc with ⟨_, _, hq⟩ | ⟨_, _, hq⟩ | ⟨_, hq, hq'⟩ | ⟨_, hq, hq'⟩ <;> omega

lemma adj_entry (w h y x y' x' : Nat) (d : Dir) (hadj : adj w h y x y' x' d) :
    ∃ e ∈ neighborList (x : Int) (y : Int),
      e.2.2 = d ∧ ¬(e.1 < 0 ∨ (w : Int) ≤ e.1 ∨ e.2.1 < 0 ∨ (h : Int) ≤ e.2.1) ∧
        e.2.1.toNat = y' ∧ e.1.toNat = x' := by
  obtain ⟨h1, h2, h3, h4, hc⟩ := hadj
  rcases hc with ⟨hd, hx, hy⟩ | ⟨hd, hx, hy⟩ | ⟨hd, hy, hx⟩ | ⟨hd, hy, hx⟩ <;> subst hd
  · refine ⟨((x : Int), (y : Int) - 1, Dir.north), by simp [neighborList], rfl, ?_, ?_, ?_⟩
    · dsimp only
      push_neg
      refine ⟨by omega, by omega, by omega, by omega⟩
    · dsimp only
      omega
    · dsimp only
      omega
  · refine ⟨((x : Int), (y : Int) + 1, Dir.south), by simp [neighborList], rfl, ?_, ?_, ?_⟩
    · dsimp only
      push_neg
      refine ⟨by omega, by omega, by omega, by omega⟩
    · dsimp only
      omega
    · dsimp only
      omega
  · refine ⟨((x : Int) + 1, (y : Int), Dir.east), by simp [neighborList], rfl, ?_, ?_, ?_⟩
    · dsimp only
      push_neg
      refine ⟨by omega, by omega, by omega, by omega⟩
    · dsimp only
      omega
    · dsimp only
      omega
  · refine ⟨((x : Int) - 1, (y : Int), Dir.west), by simp [neighborList], rfl, ?_, ?_, ?_⟩
    · dsimp only
      push_neg
      refine ⟨by omega, by omega, by omega, by omega⟩
    · dsimp only
      omega
    · dsimp only
      omega



/-- The adjacency harmony invariant: every collapsed cell constrains each of
its in-grid neighbors to tiles allowed by the adjacency table. -/
def harmony (g : Generator) (w h : Nat) (poss : Poss) (coll : Coll) : Prop :=
  ∀ y x y' x' d, adj w h y x y' x' d → coll y x = true →
    ∀ t ∈ poss y x, ∀ v ∈ poss y' x', v ∈ g.rules t d

lemma harmony_step (tiles : List Tile) (g : Generator) (w h : Nat) (stream : Nat → ℚ)
    (hg : mkGenerator tiles = some g) (hnd : (tiles.map Tile.id).Nodup) (s s' : WfcState)
    (hP : idsOk tiles s.poss ∧ harmony g w h s.poss s.coll)
    (hrun : wfcStep g w h stream s = StepRes.cont s') :
    idsOk tiles s'.poss ∧ harmony g w h s'.poss s'.coll := by
  refine ⟨idsOk_step tiles g w h stream hg s s' hP.1 hrun, ?_⟩
  obtain ⟨pos', y, x, pos'', chosen, hfm, hcc, hpp, hcol, hpos⟩ :=
    wfcStep_cont_inv g w h stream s s' hrun
  obtain ⟨hchosen, _⟩ := collapseCell_mem tiles g _ stream pos' pos'' chosen hg hcc
  obtain ⟨q1, q2, q3⟩ := propagate_sound g w h _ _ x y s'.poss hpp
  have hfirst := propagate_first g w h _ _ x y s'.poss hpp
  intro ya xa yb xb d hadj hcolla t ht v hv
  have hbne : ¬(yb = ya ∧ xb = xa) := adj_ne w h ya xa yb xb d hadj
  by_cases hceq : ya = y ∧ xa = x
  · -- the constraining cell is the newly collapsed one
    obtain ⟨hya, hxa⟩ := hceq
    subst hya
    subst hxa
    have hc₁ : setCell s.coll ya xa true ya xa = true := by
      rw [setCell, if_pos ⟨rfl, rfl⟩]
    have hfa : s'.poss ya xa = [chosen] := by
      rw [q1 ya xa hc₁, setCell, if_pos ⟨rfl, rfl⟩]
    rw [hfa, List.mem_singleton] at ht
    subst ht
    by_cases hcb : s.coll yb xb = true
    · -- neighbor collapsed earlier: old harmony plus table symmetry
      have hfb : s'.poss yb xb = s.poss yb xb := by
        have hcb₁ : setCell s.coll ya xa true yb xb = true := by
          rw [setCell, if_neg hbne]
          exact hcb
        rw [q1 yb xb hcb₁, setCell, if_neg hbne]
      rw [hfb] at hv
      have hold := hP.2 yb xb ya xa d.opposite (adj_symm w h ya xa yb xb d hadj) hcb v hv
        t hchosen
      have hvids := hP.1 yb xb v hv
      have htids := hP.1 ya xa t hchosen
      have := (rules_symm_ids tiles g hg hnd t v htids hvids d.opposite).mp hold
      rw [Dir.opposite_opposite] at this
      exact this
    · -- neighbor still open: the first propagation pass constrained it
      obtain ⟨e, he, hed, heoob, hey, hex⟩ := adj_entry w h ya xa yb xb d hadj
      have hcb₁ : setCell s.coll ya xa true e.2.1.toNat e.1.toNat = false := by
        rw [hey, hex, setCell, if_neg hbne]
        rw [Bool.not_eq_true] at hcb
        exact hcb
      have hv' : v ∈ s'.poss e.2.1.toNat e.1.toNat := by
        rw [hey, hex]
        exact hv
      obtain ⟨t0, ht0, hvr⟩ := hfirst e he heoob hcb₁ v hv'
      rw [setCell, if_pos ⟨rfl, rfl⟩, List.mem_singleton] at ht0
      rw [← ht0, ← hed]
      exact hvr
  · -- the constraining cell was collapsed in an earlier iteration
    have hca : s.coll ya xa = true := by
      have h0 : s'.coll ya xa = true := hcolla
      rw [hcol, setCell, if_neg hceq] at h0
      exact h0
    have hfa : s'.poss ya xa = s.poss ya xa := by
      have hc₁ : setCell s.coll y x true ya xa = true := by
        rw [setCell, if_neg hceq]
        exact hca
      rw [q1 ya xa hc₁, setCell, if_neg hceq]
    rw [hfa] at ht
    have hvb : v ∈ s.poss yb xb := by
      have h1 := q2 yb xb v hv
      rw [setCell] at h1
      by_cases hbeq : yb = y ∧ xb = x
      · rw [if_pos hbeq] at h1
        rw [List.mem_singleton] at h1
        rw [h1, hbeq.1, hbeq.2]
        exact hchosen
      · rw [if_neg hbeq] at h1
        exact h1
    exact hP.2 ya xa yb xb d hadj hca t ht v hvb



/-- C1: every grid returned by a successful `generate` run on a catalog with
unique tile ids is adjacency-valid: for every pair of horizontally or
vertically adjacent cells there are catalog tiles carrying the two stored
ids whose facing edge labels match (`can_connect` holds in that
direction). -/
theorem c1_validity :
    ∀ (tiles : List Tile) (g : Generator) (w h : Nat) (stream : Nat → ℚ)
      (grid : List (List Nat)),
      mkGenerator tiles = some g → (tiles.map Tile.id).Nodup →
      generate g w h stream = RunResult.ok grid →
      (∀ y x, y < h → x + 1 < w →
        ∃ ta ∈ tiles, ∃ tb ∈ tiles, ta.id = cellAt grid y x ∧ tb.id = cellAt grid y (x + 1) ∧
          canConnect ta tb Dir.east = some true) ∧
      (∀ y x, y + 1 < h → x < w →
        ∃ ta ∈ tiles, ∃ tb ∈ tiles, ta.id = cellAt grid y x ∧ tb.id = cellAt grid (y + 1) x ∧
          canConnect ta tb Dir.south = some true) := by
  intro tiles g w h stream grid hg hnd hrun
  rw [generate, generateFull] at hrun
  rcases hW : wfcLoop g w h stream (w * h * 100) (initState g) with ⟨r, p⟩
  rw [hW] at hrun
  cases hrun
  have hinit : idsOk tiles (initState g).poss ∧
      harmony g w h (initState g).poss (initState g).coll := by
    constructor
    · intro y x v hv
      rw [initState] at hv
      simp only at hv
      rw [(mkGenerator_parts tiles g hg).1] at hv
      exact List.mem_dedup.mp hv
    · intro ya xa yb xb d hadj hcoll
      rw [initState] at hcoll
      simp only at hcoll
      cases hcoll
  obtain ⟨poss', coll', ⟨hids, hharm⟩, hallc, hbg⟩ :=
    wfcLoop_ok_induct g w h stream
      (fun poss coll => idsOk tiles poss ∧ harmony g w h poss coll)
      (fun s s' hPs hst => harmony_step tiles g w h stream hg hnd s s' hPs hst)
      (w * h * 100) (initState g) grid p hinit hW
  obtain ⟨hne, hgrid⟩ := buildGrid_some w h poss' grid hbg
  have key : ∀ ya xa yb xb d, adj w h ya xa yb xb d →
      ∃ ta ∈ tiles, ∃ tb ∈ tiles, ta.id = cellAt grid ya xa ∧ tb.id = cellAt grid yb xb ∧
        canConnect ta tb d = some true := by
    intro ya xa yb xb d hadj
    obtain ⟨hya, hxa, hyb, hxb, _⟩ := id hadj
    have hca := hallc ya hya xa hxa
    have ha_mem : (poss' ya xa).headD 0 ∈ poss' ya xa := headD_mem _ (hne ya hya xa hxa) 0
    have hb_mem : (poss' yb xb).headD 0 ∈ poss' yb xb := headD_mem _ (hne yb hyb xb hxb) 0
    have hv := hharm ya xa yb xb d hadj hca _ ha_mem _ hb_mem
    have haid := hids ya xa _ ha_mem
    obtain ⟨ta, hta, htaid⟩ := List.mem_map.mp haid
    rw [← htaid] at hv
    rw [mem_rules_iff tiles g ta d _ hg hnd hta] at hv
    obtain ⟨tb, htb, htbid, hcc⟩ := hv
    refine ⟨ta, hta, tb, htb, ?_, ?_, hcc⟩
    · rw [hgrid, cellAt_grid h w _ ya xa hya hxa]
      exact htaid
    · rw [hgrid, cellAt_grid h w _ yb xb hyb hxb]
      exact htbid
  constructor
  · intro y x hy hx
    exact key y x y (x + 1) Dir.east
      ⟨hy, by omega, hy, hx, Or.inr (Or.inr (Or.inl ⟨rfl, rfl, rfl⟩))⟩
  · intro y x hy hx
    exact key y x (y + 1) x Dir.south
      ⟨by omega, hx, hy, hx, Or.inr (Or.inl ⟨rfl, rfl, rfl⟩)⟩

/-- C1 witness: adjacency validity of the concrete 2 by 1 run. -/
theorem c1_witness :
    ∃ ta ∈ catAB, ∃ tb ∈ catAB, ta.id = cellAt [[1, 1]] 0 0 ∧ tb.id = cellAt [[1, 1]] 0 1 ∧
      canConnect ta tb Dir.east = some true :=
  (c1_validity catAB gAB 2 1 stream0 [[1, 1]] rfl (by decide) run21_zero).1 0 0
    (by norm_num) (by norm_num)



/-- Cell-level invariant of C10: in-grid possibility sets never empty, and
collapsed cells hold exactly one candidate. -/
def cellInv (w h : Nat) (poss : Poss) (coll : Coll) : Prop :=
  (∀ y < h, ∀ x < w, poss y x ≠ []) ∧
    (∀ y < h, ∀ x < w, coll y x = true → (poss y x).length = 1)

/-- C10: throughout a run, in-grid possibility sets stay non-empty and a
collapsed cell's set is a singleton frozen for the rest of the run: the loop
body preserves the cell invariant and never touches a collapsed cell, a
successful propagation never stores an empty intersection (an empty one
makes the step return the contradiction failure instead), and a non-empty
catalog establishes the invariant initially. -/
theorem c10_invariants :
    (∀ (g : Generator) (w h : Nat) (stream : Nat → ℚ) (s s' : WfcState),
      wfcStep g w h stream s = StepRes.cont s' →
        (cellInv w h s.poss s.coll → cellInv w h s'.poss s'.coll) ∧
        (∀ y x, s.coll y x = true → s'.poss y x = s.poss y x ∧ s'.coll y x = true)) ∧
    (∀ (g : Generator) (w h : Nat) (poss : Poss) (coll : Coll) (x y : Nat) (poss' : Poss),
      propagate g w h poss coll x y = some (some poss') →
        ∀ y' x', poss y' x' ≠ [] → poss' y' x' ≠ []) ∧
    (∀ (g : Generator) (w h : Nat), g.tiles ≠ [] →
      cellInv w h (initState g).poss (initState g).coll) := by
  refine ⟨?_, ?_, ?_⟩
  · intro g w h stream s s' hrun
    obtain ⟨pos', y, x, pos'', chosen, hfm, hcc, hpp, hcol, hpos⟩ :=
      wfcStep_cont_inv g w h stream s s' hrun
    obtain ⟨q1, q2, q3⟩ := propagate_sound g w h _ _ x y s'.poss hpp
    have hyx : s.coll y x = false :=
      (findMinAux_some s.poss s.coll stream (rowMajor w h) s.pos none pos' (y, x)
        (fun _ _ _ hx => by cases hx) hfm).1
    have frozen : ∀ y0 x0, s.coll y0 x0 = true → s'.poss y0 x0 = s.poss y0 x0 ∧
        s'.coll y0 x0 = true := by
      intro y0 x0 hc
      have hne : ¬(y0 = y ∧ x0 = x) := by
        rintro ⟨hy0, hx0⟩
        rw [hy0, hx0] at hc
        rw [hc] at hyx
        cases hyx
      have hc₁ : setCell s.coll y x true y0 x0 = true := by
        rw [setCell, if_neg hne]
        exact hc
      constructor
      · rw [q1 y0 x0 hc₁, setCell, if_neg hne]
      · rw [hcol, setCell, if_neg hne]
        exact hc
    refine ⟨?_, frozen⟩
    intro hInv
    constructor
    · intro y0 hy0 x0 hx0
      apply q3
      rw [setCell]
      by_cases hq : y0 = y ∧ x0 = x
      · rw [if_pos hq]
        exact List.cons_ne_nil chosen []
      · rw [if_neg hq]
        exact hInv.1 y0 hy0 x0 hx0
    · intro y0 hy0 x0 hx0 hcol0
      by_cases hq : y0 = y ∧ x0 = x
      · have hc₁ : setCell s.coll y x true y0 x0 = true := by
          rw [setCell, if_pos hq]
        rw [q1 y0 x0 hc₁, setCell, if_pos hq]
        rfl
      · have hc0 : s.coll y0 x0 = true := by
          rw [hcol, setCell, if_neg hq] at hcol0
          exact hcol0
        rw [(frozen y0 x0 hc0).1]
        exact hInv.2 y0 hy0 x0 hx0 hc0
  · intro g w h poss coll x y poss' hrun y' x'
    exact (propagate_sound g w h poss coll x y poss' hrun).2.2 y' x'
  · intro g w h hne
    constructor
    · intro y _ x _
      rw [initState]
      simp only
      rw [Ne, List.dedup_eq_nil, List.map_eq_nil_iff]
      exact hne
    · intro y _ x _ hcoll
      rw [initState] at hcoll
      simp only at hcoll
      cases hcoll


/-- Evaluation of one concrete loop-body step on the scenario catalog. -/
lemma c10_step_eval :
    wfcStep gAB 1 1 stream0 (initState gAB) =
      StepRes.cont ⟨setCell (fun _ _ => [1, 2]) 0 0 [1], setCell (fun _ _ => false) 0 0 true, 2⟩ := by
  norm_num [wfcStep, findMin, rowMajor, findMinAux, bestUpdate, collapseCell, lookupTiles,
    pickGo, propagate, propagateAux, processNeighbors, neighborList, totalMass, setCell,
    initState, stream0, gAB, catAB, tileA, tileB, mkTileById, rulesOf, ruleRowFor, canConnect,
    Dir.opposite, List.range_succ, Finset.sum_range_succ, str_gw, str_wg, str_gg, str_ww]

/-- C10 witness: the invariant after the first step of a concrete run. -/
theorem c10_witness :
    cellInv 1 1 (setCell (fun _ _ => [1, 2]) 0 0 [1]) (setCell (fun _ _ => false) 0 0 true) :=
  ((c10_invariants.1 gAB 1 1 stream0 (initState gAB)
      ⟨setCell (fun _ _ => [1, 2]) 0 0 [1], setCell (fun _ _ => false) 0 0 true, 2⟩
      c10_step_eval).1) (by unfold cellInv; exact ⟨by decide, by decide⟩)


/-- Stream position carried by a loop-body outcome. -/
def stepPos : StepRes → Nat
  | StepRes.cont s => s.pos
  | StepRes.brk p => p
  | StepRes.fail _ p => p

lemma findMinAux_pos_mono (poss : Poss) (coll : Coll) (stream : Nat → ℚ) :
    ∀ (coords : List (Nat × Nat)) (pos : Nat) (best : Option (ℚ × Nat × Nat)) (p : Nat)
      (o : Option (Nat × Nat)),
      findMinAux poss coll stream coords pos best = (p, o) → pos ≤ p := by
  intro coords
  induction coords with
  | nil =>
    intro pos best p o hrun
    rw [findMinAux] at hrun
    cases hrun
    exact le_refl pos
  | cons c rest ih =>
    intro pos best p o hrun
    obtain ⟨y, x⟩ := c
    rw [findMinAux] at hrun
    by_cases hcoll : coll y x
    · rw [if_pos hcoll] at hrun
      exact ih pos best p o hrun
    · rw [if_neg hcoll] at hrun
      by_cases hlen : (poss y x).length = 0
      · rw [if_pos hlen] at hrun
        cases hrun
        exact le_refl pos
      · rw [if_neg hlen] at hrun
        exact Nat.le_of_succ_le (ih (pos + 1) _ p o hrun)

lemma findMinAux_agree (poss : Poss) (coll : Coll) (s1 s2 : Nat → ℚ) :
    ∀ (coords : List (Nat × Nat)) (pos : Nat) (best : Option (ℚ × Nat × Nat)) (p : Nat)
      (o : Option (Nat × Nat)),
      findMinAux poss coll s1 coords pos best = (p, o) →
      (∀ i, i < p → s1 i = s2 i) →
      findMinAux poss coll s2 coords pos best = (p, o) := by
  intro coords
  induction coords with
  | nil =>
    intro pos best p o hrun hag
    rw [findMinAux] at hrun
    rw [findMinAux]
    exact hrun
  | cons c rest ih =>
    intro pos best p o hrun hag
    obtain ⟨y, x⟩ := c
    rw [findMinAux] at hrun
    rw [findMinAux]
    by_cases hcoll : coll y x
    · rw [if_pos hcoll] at hrun
      rw [if_pos hcoll]
      exact ih pos best p o hrun hag
    · rw [if_neg hcoll] at hrun
      rw [if_neg hcoll]
      by_cases hlen : (poss y x).length = 0
      · rw [if_pos hlen] at hrun
        rw [if_pos hlen]
        exact hrun
      · rw [if_neg hlen] at hrun
        rw [if_neg hlen]
        have hlt : pos < p := Nat.lt_of_succ_le (findMinAux_pos_mono poss coll s1 rest
          (pos + 1) _ p o hrun)
        rw [← hag pos hlt]
        exact ih (pos + 1) _ p o hrun hag

lemma collapseCell_agree (g : Generator) (st : List Nat) (s1 s2 : Nat → ℚ) (pos : Nat)
    (hag : s1 pos = s2 pos) : collapseCell g st s2 pos = collapseCell g st s1 pos := by
  rw [collapseCell, collapseCell, hag]

lemma wfcStep_pos_le (g : Generator) (w h : Nat) (stream : Nat → ℚ) (s : WfcState)
    (out : StepRes) (hrun : wfcStep g w h stream s = out) : s.pos ≤ stepPos out := by
  rw [wfcStep] at hrun
  rcases hfm : findMin w h s.poss s.coll stream s.pos with ⟨q, o⟩
  rw [hfm] at hrun
  have hq : s.pos ≤ q := findMinAux_pos_mono s.poss s.coll stream (rowMajor w h) s.pos none q o hfm
  cases o with
  | none =>
    simp only at hrun
    rw [← hrun, stepPos]
    exact hq
  | some yx =>
    obtain ⟨y, x⟩ := yx
    simp only at hrun
    rcases hcc : collapseCell g (s.poss y x) stream q with ⟨q2, oc⟩
    rw [hcc] at hrun
    have hq2 : q2 = q + 1 := by
      rw [collapseCell] at hcc
      cases hlk : lookupTiles g.tileById (s.poss y x) with
      | none =>
        rw [hlk] at hcc
        cases hcc
        rfl
      | some cand =>
        rw [hlk] at hcc
        simp only at hcc
        by_cases htot : (cand.map Tile.weight).sum ≤ 0
        · rw [if_pos htot] at hcc
          cases hcc
          rfl
        · rw [if_neg htot] at hcc
          cases hcc
          rfl
    cases oc with
    | none =>
      cases hrun
      simp only [stepPos]
      omega
    | some chosen =>
      simp only at hrun
      cases hpp : propagate g w h (setCell s.poss y x [chosen]) (setCell s.coll y x true) x y with
      | none =>
        rw [hpp] at hrun
        cases hrun
        simp only [stepPos]
        omega
      | some o2 =>
        rw [hpp] at hrun
        cases o2 with
        | none =>
          cases hrun
          simp only [stepPos]
          omega
        | some poss2 =>
          cases hrun
          simp only [stepPos]
          omega

lemma wfcStep_agree (g : Generator) (w h : Nat) (s1 s2 : Nat → ℚ) (s : WfcState)
    (out : StepRes) (hrun : wfcStep g w h s1 s = out)
    (hag : ∀ i, i < stepPos out → s1 i = s2 i) : wfcStep g w h s2 s = out := by
  rw [wfcStep] at hrun
  rw [wfcStep]
  rcases hfm : findMin w h s.poss s.coll s1 s.pos with ⟨q, o⟩
  rw [hfm] at hrun
  have hqle : q ≤ stepPos out := by
    cases o with
    | none =>
      simp only at hrun
      rw [← hrun, stepPos]
    | some yx =>
      obtain ⟨y, x⟩ := yx
      simp only at hrun
      rcases hcc : collapseCell g (s.poss y x) s1 q with ⟨q2, oc⟩
      rw [hcc] at hrun
      have hq2 : q2 = q + 1 := by
        rw [collapseCell] at hcc
        cases hlk : lookupTiles g.tileById (s.poss y x) with
        | none =>
          rw [hlk] at hcc
          cases hcc
          rfl
        | some cand =>
          rw [hlk] at hcc
          simp only at hcc
          by_cases htot : (cand.map Tile.weight).sum ≤ 0
          · rw [if_pos htot] at hcc
            cases hcc
            rfl
          · rw [if_neg htot] at hcc
            cases hcc
            rfl
      cases oc with
      | none =>
        cases hrun
        simp only [stepPos]
        omega
      | some chosen =>
        simp only at hrun
        cases hpp : propagate g w h (setCell s.poss y x [chosen])
            (setCell s.coll y x true) x y with
        | none =>
          rw [hpp] at hrun
          cases hrun
          simp only [stepPos]
          omega
        | some o2 =>
          rw [hpp] at hrun
          cases o2 with
          | none =>
            cases hrun
            simp only [stepPos]
            omega
          | some poss2 =>
            cases hrun
            simp only [stepPos]
            omega
  have hfm2 : findMin w h s.poss s.coll s2 s.pos = (q, o) :=
    findMinAux_agree s.poss s.coll s1 s2 (rowMajor w h) s.pos none q o hfm
      (fun i hi => hag i (lt_of_lt_of_le hi hqle))
  rw [findMin] at hfm2
  rw [findMin, hfm2]
  cases o with
  | none => exact hrun
  | some yx =>
    obtain ⟨y, x⟩ := yx
    simp only at hrun
    simp only
    rcases hcc : collapseCell g (s.poss y x) s1 q with ⟨q2, oc⟩
    rw [hcc] at hrun
    have hq2 : q2 = q + 1 := by
      rw [collapseCell] at hcc
      cases hlk : lookupTiles g.tileById (s.poss y x) with
      | none =>
        rw [hlk] at hcc
        cases hcc
        rfl
      | some cand =>
        rw [hlk] at hcc
        simp only at hcc
        by_cases htot : (cand.map Tile.weight).sum ≤ 0
        · rw [if_pos htot] at hcc
          cases hcc
          rfl
        · rw [if_neg htot] at hcc
          cases hcc
          rfl
    have hqlt : q < stepPos out := by
      cases oc with
      | none =>
        cases hrun
        simp only [stepPos]
        omega
      | some chosen =>
        simp only at hrun
        cases hpp : propagate g w h (setCell s.poss y x [chosen])
            (setCell s.coll y x true) x y with
        | none =>
          rw [hpp] at hrun
          cases hrun
          simp only [stepPos]
          omega
        | some o2 =>
          rw [hpp] at hrun
          cases o2 with
          | none =>
            cases hrun
            simp only [stepPos]
            omega
          | some poss2 =>
            cases hrun
            simp only [stepPos]
            omega
    rw [collapseCell_agree g (s.poss y x) s1 s2 q (hag q hqlt), hcc]
    exact hrun



lemma wfcLoop_pos_le (g : Generator) (w h : Nat) (stream : Nat → ℚ) :
    ∀ (fuel : Nat) (s : WfcState) (r : RunResult) (p : Nat),
      wfcLoop g w h stream fuel s = (r, p) → s.pos ≤ p := by
  intro fuel
  induction fuel with
  | zero =>
    intro s r p hrun
    rw [wfcLoop_zero] at hrun
    cases hrun
    exact le_refl _
  | succ fuel ih =>
    intro s r p hrun
    rw [wfcLoop_succ] at hrun
    by_cases hfc : fullyCollapsed w h s.coll
    · rw [if_pos hfc] at hrun
      cases hrun
      exact le_refl _
    · rw [if_neg hfc] at hrun
      cases hstep : wfcStep g w h stream s with
      | brk pos' =>
        rw [hstep] at hrun
        simp only at hrun
        cases hrun
        exact wfcStep_pos_le g w h stream s _ hstep
      | fail r' pos' =>
        rw [hstep] at hrun
        simp only at hrun
        cases hrun
        exact wfcStep_pos_le g w h stream s _ hstep
      | cont s' =>
        rw [hstep] at hrun
        exact le_trans (wfcStep_pos_le g w h stream s _ hstep) (ih s' r p hrun)

lemma wfcLoop_agree (g : Generator) (w h : Nat) (s1 s2 : Nat → ℚ) :
    ∀ (fuel : Nat) (s : WfcState) (r : RunResult) (p : Nat),
      wfcLoop g w h s1 fuel s = (r, p) →
      (∀ i, i < p → s1 i = s2 i) →
      wfcLoop g w h s2 fuel s = (r, p) := by
  intro fuel
  induction fuel with
  | zero =>
    intro s r p hrun hag
    rw [wfcLoop_zero] at hrun
    rw [wfcLoop_zero]
    exact hrun
  | succ fuel ih =>
    intro s r p hrun hag
    rw [wfcLoop_succ] at hrun
    rw [wfcLoop_succ]
    by_cases hfc : fullyCollapsed w h s.coll
    · rw [if_pos hfc] at hrun
      rw [if_pos hfc]
      exact hrun
    · rw [if_neg hfc] at hrun
      rw [if_neg hfc]
      cases hstep : wfcStep g w h s1 s with
      | brk pos' =>
        rw [hstep] at hrun
        simp only at hrun
        have hple : stepPos (StepRes.brk pos') ≤ p := by
          simp only [stepPos]
          exact le_of_eq (congrArg Prod.snd hrun)
        rw [wfcStep_agree g w h s1 s2 s _ hstep (fun i hi => hag i (lt_of_lt_of_le hi hple))]
        exact hrun
      | fail r' pos' =>
        rw [hstep] at hrun
        simp only at hrun
        have hple : stepPos (StepRes.fail r' pos') ≤ p := by
          simp only [stepPos]
          exact le_of_eq (congrArg Prod.snd hrun)
        rw [wfcStep_agree g w h s1 s2 s _ hstep (fun i hi => hag i (lt_of_lt_of_le hi hple))]
        exact hrun
      | cont s' =>
        rw [hstep] at hrun
        have hple : stepPos (StepRes.cont s') ≤ p := by
          simp only [stepPos]
          exact wfcLoop_pos_le g w h s1 fuel s' r p hrun
        rw [wfcStep_agree g w h s1 s2 s _ hstep (fun i hi => hag i (lt_of_lt_of_le hi hple))]
        exact ih s' r p hrun hag

/-- C5: a full `generate` run is a deterministic function of the catalog, the
dimensions and the prefix of the seeded random stream it actually consumes:
any stream agreeing with the first run's stream below its final position
produces the identical outcome (the same grid, or the same failure) and
consumes the same amount of randomness.  In particular two runs with the
same seed, hence the same stream, are bit-identical. -/
theorem c5_determinism :
    ∀ (g : Generator) (w h : Nat) (s1 s2 : Nat → ℚ) (r : RunResult) (p : Nat),
      generateFull g w h s1 = (r, p) →
      (∀ i, i < p → s1 i = s2 i) →
      generateFull g w h s2 = (r, p) ∧ generate g w h s2 = generate g w h s1 := by
  intro g w h s1 s2 r p hrun hag
  rw [generateFull] at hrun
  have h2 : generateFull g w h s2 = (r, p) := by
    rw [generateFull]
    exact wfcLoop_agree g w h s1 s2 (w * h * 100) (initState g) r p hrun hag
  refine ⟨h2, ?_⟩
  rw [generate, generate, h2, generateFull, hrun]



/-- Concrete evaluation: the 1 by 1 run with the all-zero stream returns the
single-cell grid and consumes two draws. -/
lemma run11_zero_full : generateFull gAB 1 1 stream0 = (RunResult.ok [[1]], 2) := by
  rw [generateFull, show (1 * 1 * 100 : Nat) = 99 + 1 by norm_num, wfcLoop_succ]
  norm_num [initState, stream0, fullyCollapsed, wfcStep, findMin, rowMajor, findMinAux,
    bestUpdate, collapseCell, lookupTiles, pickGo, propagate, propagateAux, processNeighbors,
    neighborList, totalMass, setCell, afterLoop, buildGrid, gAB, catAB, tileA, tileB, mkTileById,
    rulesOf, ruleRowFor, canConnect, Dir.opposite, List.range_succ, Finset.sum_range_succ,
    str_gw, str_wg, str_gg, str_ww]
  rw [show (99 : Nat) = 98 + 1 by norm_num, wfcLoop_succ]
  norm_num [fullyCollapsed, setCell, afterLoop, buildGrid, List.range_succ]

/-- C5 witness: a stream agreeing with the all-zero stream on the two
consumed draws reproduces the same run outcome. -/
theorem c5_witness :
    generateFull gAB 1 1 (fun i => if i < 2 then (0 : ℚ) else 1 / 2) = (RunResult.ok [[1]], 2) ∧
      generate gAB 1 1 (fun i => if i < 2 then (0 : ℚ) else 1 / 2) = generate gAB 1 1 stream0 :=
  c5_determinism gAB 1 1 stream0 (fun i => if i < 2 then (0 : ℚ) else 1 / 2)
    (RunResult.ok [[1]]) 2 run11_zero_full
    (by
      intro i hi
      simp only [stream0]
      rw [if_pos hi])


/-- Symbolic evaluation: on the scenario catalog every 1 by 1 run succeeds,
collapsing the single cell to tile A or tile B depending on the draw. -/
lemma c3_run11 (stream : Nat → ℚ) :
    ∃ t, (t = 1 ∨ t = 2) ∧ generate gAB 1 1 stream = RunResult.ok [[t]] := by
  rw [generate, generateFull, show (1 * 1 * 100 : Nat) = 99 + 1 by norm_num, wfcLoop_succ]
  norm_num [initState, fullyCollapsed, wfcStep, findMin, rowMajor, findMinAux,
    bestUpdate, collapseCell, lookupTiles, pickGo, propagate, propagateAux, processNeighbors,
    neighborList, totalMass, setCell, afterLoop, buildGrid, gAB, catAB, tileA, tileB, mkTileById,
    rulesOf, ruleRowFor, canConnect, Dir.opposite, List.range_succ, Finset.sum_range_succ,
    str_gw, str_wg, str_gg, str_ww]
  by_cases hcmp : stream 1 * 2 < 1
  · left
    rw [if_pos hcmp]
    norm_num []
    rw [show (99 : Nat) = 98 + 1 by norm_num, wfcLoop_succ]
    norm_num [fullyCollapsed, setCell, afterLoop, buildGrid, List.range_succ]
  · right
    rw [if_neg hcmp]
    norm_num []
    rw [show (99 : Nat) = 98 + 1 by norm_num, wfcLoop_succ]
    norm_num [fullyCollapsed, setCell, afterLoop, buildGrid, List.range_succ]



/-- Symbolic evaluation: on the scenario catalog every 2 by 1 run succeeds
and produces a uniform grid — the first collapse propagates its tile as the
only candidate for the second cell. -/
lemma c3_run21 (stream : Nat → ℚ) :
    ∃ t, (t = 1 ∨ t = 2) ∧ generate gAB 2 1 stream = RunResult.ok [[t, t]] := by
  rw [generate, generateFull, show (2 * 1 * 100 : Nat) = 199 + 1 by norm_num, wfcLoop_succ]
  by_cases h0 : stream 1 < stream 0 <;> by_cases h1 : stream 2 * 2 < 1 <;>
    norm_num [initState, fullyCollapsed, wfcStep, findMin, rowMajor, findMinAux,
      bestUpdate, collapseCell, lookupTiles, pickGo, propagate, propagateAux, processNeighbors,
      neighborList, totalMass, setCell, afterLoop, buildGrid, gAB, catAB, tileA, tileB,
      mkTileById, rulesOf, ruleRowFor, canConnect, Dir.opposite, List.range_succ,
      Finset.sum_range_succ, str_gw, str_wg, str_gg, str_ww, h0, h1] <;>
    rw [show (199 : Nat) = 198 + 1 by norm_num, wfcLoop_succ] <;>
    norm_num [fullyCollapsed, wfcStep, findMin, rowMajor, findMinAux, bestUpdate, collapseCell,
      lookupTiles, pickGo, propagate, propagateAux, processNeighbors, neighborList, totalMass,
      setCell, afterLoop, buildGrid, gAB, catAB, tileA, tileB, mkTileById, rulesOf, ruleRowFor,
      canConnect, Dir.opposite, List.range_succ, Finset.sum_range_succ, str_gw, str_wg, str_gg,
      str_ww, h0, h1] <;>
    rw [show (198 : Nat) = 197 + 1 by norm_num, wfcLoop_succ] <;>
    norm_num [fullyCollapsed, setCell, afterLoop, buildGrid, List.range_succ]



/-- C3 counterexample: on the two-tile scenario catalog a concrete 2 by 1
run returns a grid instead of failing with a contradiction, refuting the
claim that every such run fails. -/
theorem c3_counterexample : generate gAB 2 1 stream0 = RunResult.ok [[1, 1]] := run21_zero

/-- C3 amended: the scenario catalog builds successfully, and every run on
a 2 by 1 grid succeeds, returning a uniform grid whose two cells both hold
tile A's id or both hold tile B's id (never a Contradiction); every run on
the 1 by 1 grid likewise succeeds. -/
theorem c3_amended_scenario :
    mkGenerator catAB = some gAB ∧
      ∀ stream : Nat → ℚ,
        (∃ t, (t = 1 ∨ t = 2) ∧ generate gAB 2 1 stream = RunResult.ok [[t, t]]) ∧
        (∃ t, (t = 1 ∨ t = 2) ∧ generate gAB 1 1 stream = RunResult.ok [[t]]) :=
  ⟨rfl, fun stream => ⟨c3_run21 stream, c3_run11 stream⟩⟩


/-- Updating one in-grid cell changes the total possibility mass by exactly
the difference of the stored list lengths. -/
lemma totalMass_setCell (w h : Nat) (poss : Poss) (y0 x0 : Nat) (v : List Nat)
    (hy : y0 < h) (hx : x0 < w) :
    totalMass w h (setCell poss y0 x0 v) + (poss y0 x0).length
      = totalMass w h poss + v.length := by
  rw [totalMass, totalMass]
  have hyy : y0 ∈ Finset.range h := Finset.mem_range.mpr hy
  have hxx : x0 ∈ Finset.range w := Finset.mem_range.mpr hx
  rw [← Finset.add_sum_erase _ _ hyy, ← Finset.add_sum_erase _ (fun y =>
    ∑ x ∈ Finset.range w, (poss y x).length) hyy]
  have hrest : ∑ y ∈ (Finset.range h).erase y0, ∑ x ∈ Finset.range w,
      (setCell poss y0 x0 v y x).length
      = ∑ y ∈ (Finset.range h).erase y0, ∑ x ∈ Finset.range w, (poss y x).length := by
    apply Finset.sum_congr rfl
    intro y hymem
    apply Finset.sum_congr rfl
    intro x _
    rw [setCell, if_neg]
    rintro ⟨hyq, _⟩
    exact (Finset.mem_erase.mp hymem).1 hyq
  rw [hrest]
  have hrow2 : ∑ x ∈ Finset.range w, (setCell poss y0 x0 v y0 x).length
      + (poss y0 x0).length
      = (∑ x ∈ Finset.range w, (poss y0 x).length) + v.length := by
    rw [← Finset.add_sum_erase _ _ hxx, ← Finset.add_sum_erase _ (fun x =>
      (poss y0 x).length) hxx]
    have hrest2 : ∑ x ∈ (Finset.range w).erase x0, (setCell poss y0 x0 v y0 x).length
        = ∑ x ∈ (Finset.range w).erase x0, (poss y0 x).length := by
      apply Finset.sum_congr rfl
      intro x hxmem
      rw [setCell, if_neg]
      rintro ⟨_, hxq⟩
      exact (Finset.mem_erase.mp hxmem).1 hxq
    rw [hrest2, setCell, if_pos ⟨rfl, rfl⟩]
    omega
  omega

lemma processNeighbors_mass (g : Generator) (w h : Nat) (coll : Coll) (center : List Nat) :
    ∀ (nbrs : List (Int × Int × Dir)) (poss : Poss) (acc : List (Int × Int)) (poss' : Poss)
      (acc' : List (Int × Int)),
      processNeighbors g w h coll center nbrs poss acc = some (poss', acc') →
      totalMass w h poss' + acc'.length ≤ totalMass w h poss + acc.length := by
  intro nbrs
  induction nbrs with
  | nil =>
    intro poss acc poss' acc' hrun
    rw [processNeighbors] at hrun
    cases hrun
    exact le_refl _
  | cons e rest ih =>
    intro poss acc poss' acc' hrun
    obtain ⟨nx, ny, d⟩ := e
    rw [processNeighbors] at hrun
    by_cases hoob : nx < 0 ∨ (w : Int) ≤ nx ∨ ny < 0 ∨ (h : Int) ≤ ny
    · rw [if_pos hoob] at hrun
      exact ih poss acc poss' acc' hrun
    · rw [if_neg hoob] at hrun
      by_cases hcoll : coll ny.toNat nx.toNat
      · rw [if_pos hcoll] at hrun
        exact ih poss acc poss' acc' hrun
      · rw [if_neg hcoll] at hrun
        simp only at hrun
        set newP := (poss ny.toNat nx.toNat).filter
          (fun v => center.any fun t => decide (v ∈ g.rules t d)) with hnewP
        by_cases hzero : newP.length = 0
        · rw [if_pos hzero] at hrun
          cases hrun
        · rw [if_neg hzero] at hrun
          by_cases hlt : newP.length < (poss ny.toNat nx.toNat).length
          · rw [if_pos hlt] at hrun
            have hih := ih _ _ poss' acc' hrun
            push_neg at hoob
            have hyb : ny.toNat < h := by omega
            have hxb : nx.toNat < w := by omega
            have hmass := totalMass_setCell w h poss ny.toNat nx.toNat newP hyb hxb
            rw [List.length_cons] at hih
            omega
          · rw [if_neg hlt] at hrun
            exact ih poss acc poss' acc' hrun

lemma propagateAux_no_fuelout (g : Generator) (w h : Nat) (coll : Coll) :
    ∀ (fuel : Nat) (stack : List (Int × Int)) (poss : Poss),
      totalMass w h poss + stack.length ≤ fuel →
      propagateAux g w h coll fuel stack poss ≠ none := by
  intro fuel
  induction fuel with
  | zero =>
    intro stack poss hle
    cases stack with
    | nil =>
      rw [propagateAux]
      exact Option.some_ne_none _
    | cons c rest =>
      rw [List.length_cons] at hle
      omega
  | succ fuel ih =>
    intro stack poss hle
    cases stack with
    | nil =>
      rw [propagateAux]
      exact Option.some_ne_none _
    | cons c rest =>
      obtain ⟨cx, cy⟩ := c
      rw [propagateAux]
      cases hpn : processNeighbors g w h coll (poss cy.toNat cx.toNat) (neighborList cx cy)
          poss [] with
      | none => exact Option.some_ne_none _
      | some pr =>
        obtain ⟨poss₁, pushes⟩ := pr
        apply ih
        have hm := processNeighbors_mass g w h coll _ _ poss [] poss₁ pushes hpn
        rw [List.length_append]
        rw [List.length_cons] at hle
        simp only [List.length_nil] at hm
        omega

/-- The fuel supplied by `propagate` always suffices: the worklist loop of
`_propagate` terminates on its own (each push strictly shrinks a possibility
set), so the fuel-exhaustion branch of `wfcStep` is unreachable. -/
lemma propagate_ne_none (g : Generator) (w h : Nat) (poss : Poss) (coll : Coll) (x y : Nat) :
    propagate g w h poss coll x y ≠ none := by
  rw [propagate]
  apply propagateAux_no_fuelout
  rw [List.length_cons]
  simp

end WFC
